import Mathlib

/-!
# Verification of the parametric-floor generator

Shallow embedding of `src/__init__.py` (class `archipack_floor`): the box
emission primitive `add_cube`, the layout algorithms `tile_grout`,
`tile_regular`, `tile_large_small`, `wood_regular`, `wood_parquet`, the
orchestrator `update_data`, and the accessors `matids` / `uvs`.

Python floats are modelled by `ℚ`; the ambient random source (`uniform`)
is modelled by an explicit stream `rng : ℕ → ℚ` of unit samples together
with a draw counter threaded through the generation state
(`uniform a b r = a + (b - a) * r`, the definition of Python's
`random.uniform` in terms of `random()`).  The unbounded `while` sweeps
are given explicit fuel and return `none` when the fuel runs out while
the loop guard still holds, so `some st` certifies a completed run.
Besides the three real buffers `vs`, `fs`, `ms` the state carries a ghost
log `boxes` of the boxes actually emitted by `add_cube` (origin and
post-clip dimensions); `add_cube` writes it in lockstep with the buffers
and no code reads it.
-/

namespace ArchipackFloor

inductive FloorMaterial where
  | wood
  | tile
deriving DecidableEq, Repr

inductive WoodStyle where
  | regular
  | parquet
  | herring_parquet
  | herring
deriving DecidableEq, Repr

inductive TileStyle where
  | regular
  | large_small
  | large_many_small
  | hexagon
deriving DecidableEq, Repr

/-- The parameters of `archipack_floor` that the generation code reads. -/
structure FloorParams where
  floor_material : FloorMaterial
  wood_styles : WoodStyle
  tile_styles : TileStyle
  width : ℚ
  length : ℚ
  spacing : ℚ
  thickness : ℚ
  vary_thickness : Bool
  thickness_variance : ℚ
  board_width : ℚ
  vary_width : Bool
  width_variance : ℚ
  width_spacing : ℚ
  board_length : ℚ
  vary_length : Bool
  length_variance : ℚ
  max_boards : ℕ
  length_spacing : ℚ
  boards_in_group : ℕ
  tile_width : ℚ
  tile_length : ℚ
  mortar_depth : ℚ
  offset_tiles : Bool
  random_offset : Bool
  offset : ℚ
  offset_variance : ℚ
deriving DecidableEq, Repr

/-- One emitted box: origin `(x, y, z)`, post-clip dimensions
`(w, l, t)`, and the width / length `add_cube` was called with
(`w0`, `l0`).  Ghost data recorded by `add_cube`. -/
structure Box where
  x : ℚ
  y : ℚ
  z : ℚ
  w : ℚ
  l : ℚ
  t : ℚ
  w0 : ℚ
  l0 : ℚ
deriving DecidableEq, Repr

/-- The mutable state of one generation run: the three output buffers
`vs` / `fs` / `ms` of the source, a ghost log of emitted boxes, and the
number of random draws consumed so far. -/
structure GenState where
  vs : List (ℚ × ℚ × ℚ)
  fs : List (ℕ × ℕ × ℕ × ℕ)
  ms : List ℕ
  boxes : List Box
  k : ℕ
deriving DecidableEq, Repr

def GenState.empty : GenState := ⟨[], [], [], [], 0⟩

/-- Python's `random.uniform a b` as a function of the unit sample `r`. -/
def uniform (a b r : ℚ) : ℚ := a + (b - a) * r

/-- The variance-sampling pattern of the source
(`v = nominal * (pct / 100) * 0.99; uniform(nominal - v, nominal + v)`),
drawing the `k`-th sample of the stream — the spec's VarianceSampler. -/
def vary_dim (rng : ℕ → ℚ) (nominal pct : ℚ) (k : ℕ) : ℚ :=
  uniform (nominal - nominal * (pct / 100) * (99 / 100))
    (nominal + nominal * (pct / 100) * (99 / 100)) (rng k)

/-- `archipack_floor.add_cube` (src/__init__.py:221-248).  Appends the 8
vertices, 6 faces and 6 material ids of an axis-aligned box; with `clip`
it skips the box when the origin is at or past the footprint bound and
shrinks `w` / `l` to the remaining footprint.  Thickness is untouched. -/
def add_cube (P : FloorParams) (st : GenState) (x y z w l t : ℚ)
    (clip : Bool) (mat_id : ℕ) : GenState :=
  if clip = true ∧ (P.width ≤ x ∨ P.length ≤ y) then st
  else
    let w0 := w
    let l0 := l
    let w := if clip = true ∧ P.width < x + w then P.width - x else w
    let l := if clip = true ∧ P.length < y + l then P.length - y else l
    let p := st.vs.length
    { st with
      vs := st.vs ++ [(x, y, z), (x, y, z + t), (x + w, y, z), (x + w, y, z + t),
                      (x, y + l, z), (x, y + l, z + t), (x + w, y + l, z),
                      (x + w, y + l, z + t)],
      fs := st.fs ++ [(p, p + 2, p + 3, p + 1), (p + 2, p + 6, p + 7, p + 3),
                      (p + 1, p + 3, p + 7, p + 5), (p + 6, p + 4, p + 5, p + 7),
                      (p, p + 1, p + 5, p + 4), (p, p + 4, p + 6, p + 2)],
      ms := st.ms ++ List.replicate 6 mat_id,
      boxes := st.boxes ++ [{ x := x, y := y, z := z, w := w, l := l, t := t,
                              w0 := w0, l0 := l0 }] }

/-- `archipack_floor.tile_grout` (src/__init__.py:250-255): the recessed
mortar bed below the tiles. -/
def tile_grout (P : FloorParams) (st : GenState) : GenState :=
  add_cube P st 0 0 0 P.width P.length (P.thickness - P.mortar_depth) true 1

/-- Inner `while cur_x < self.width` sweep of `tile_regular`
(src/__init__.py:277-289).  `off` is the row's offset flag, `tl2` the
row's (possibly clipped) tile length. -/
def tile_regular_x (P : FloorParams) (rng : ℕ → ℚ) :
    ℕ → ℚ → ℚ → ℚ → Bool → GenState → Option GenState
  | 0, cur_x, _cur_y, _tl2, _off, st =>
      if cur_x < P.width then none else some st
  | fuel + 1, cur_x, cur_y, tl2, off, st =>
      if cur_x < P.width then
        let tw2 :=
          if cur_x < P.width ∧ P.width < cur_x + P.tile_width then
            P.width - cur_x
          else if cur_x = 0 ∧ off = true ∧ P.offset_tiles = true ∧
              P.random_offset = false then
            P.tile_width * (1 / (100 / P.offset))
          else if cur_x = 0 ∧ P.offset_tiles = true ∧ P.random_offset = true then
            uniform
              (P.tile_length / 2 - P.tile_length * (49 / 10000) * P.offset_variance)
              (P.tile_length / 2 + P.tile_length * (49 / 10000) * P.offset_variance)
              (rng st.k)
          else P.tile_width
        let k1 :=
          if cur_x < P.width ∧ P.width < cur_x + P.tile_width then st.k
          else if cur_x = 0 ∧ off = true ∧ P.offset_tiles = true ∧
              P.random_offset = false then st.k
          else if cur_x = 0 ∧ P.offset_tiles = true ∧ P.random_offset = true then
            st.k + 1
          else st.k
        let st := { st with k := k1 }
        let st := add_cube P st cur_x cur_y 0 tw2 tl2 P.thickness true 0
        tile_regular_x P rng fuel (cur_x + tw2 + P.spacing) cur_y tl2 off st
      else some st

/-- Outer `while cur_y < self.length` sweep of `tile_regular`
(src/__init__.py:271-292).  `F` is the fuel handed to each inner sweep. -/
def tile_regular_y (P : FloorParams) (rng : ℕ → ℚ) (F : ℕ) :
    ℕ → ℚ → Bool → GenState → Option GenState
  | 0, cur_y, _off, st =>
      if cur_y < P.length then none else some st
  | fuel + 1, cur_y, off, st =>
      if cur_y < P.length then
        let tl2 :=
          if cur_y < P.length ∧ P.length < cur_y + P.tile_length then
            P.length - cur_y
          else P.tile_length
        match tile_regular_x P rng F 0 cur_y tl2 off st with
        | none => none
        | some st =>
            tile_regular_y P rng F fuel (cur_y + tl2 + P.spacing) (!off) st
      else some st

/-- `archipack_floor.tile_regular` (src/__init__.py:257-292). -/
def tile_regular (P : FloorParams) (rng : ℕ → ℚ) (F : ℕ) (st : GenState) :
    Option GenState :=
  tile_regular_y P rng F F 0 false st

/-- Inner `while cur_x < self.width` sweep of `tile_large_small`
(src/__init__.py:322-349).  Rows `0` / `1` step diagonally (mutating
`cur_y`); row `2` is the dense interleave.  The mutated `cur_y` does not
survive the row (it is reassigned from `pre_y` after the sweep), so only
the state is returned. -/
def tile_large_small_x (P : FloorParams) (row : ℕ) :
    ℕ → ℚ → ℚ → Bool → GenState → Option GenState
  | 0, cur_x, _cur_y, _step_back, st =>
      if cur_x < P.width then none else some st
  | fuel + 1, cur_x, cur_y, step_back, st =>
      if cur_x < P.width then
        let tw := P.tile_width
        let tl := P.tile_length
        let sp := P.spacing
        let s_tw := (tw - sp) / 2
        let s_tl := (tl - sp) / 2
        let th := P.thickness
        if row = 0 ∨ row = 1 then
          let st :=
            if cur_y < 0 then add_cube P st cur_x 0 0 tw (tl + cur_y) th true 0
            else add_cube P st cur_x cur_y 0 tw tl th true 0
          let st := add_cube P st (cur_x + tw + sp) (cur_y + s_tl + sp) 0
            s_tw s_tl th true 0
          if step_back = true then
            tile_large_small_x P row fuel (cur_x + tw + sp) (cur_y - (s_tl + sp))
              (!step_back) st
          else
            tile_large_small_x P row fuel (cur_x + tw + s_tw + 2 * sp)
              (cur_y + (s_tl + sp)) (!step_back) st
        else
          if cur_x = 0 then
            let st := add_cube P st cur_x cur_y 0 s_tw tl th true 0
            let st := add_cube P st (cur_x + s_tw + sp) (cur_y + s_tl + sp) 0
              s_tw s_tl th true 0
            let st := add_cube P st cur_x (cur_y - sp - s_tl) 0 s_tw s_tl th true 0
            tile_large_small_x P row fuel (cur_x + 2 * s_tw + tw + 3 * sp)
              cur_y step_back st
          else
            let st := add_cube P st cur_x cur_y 0 tw tl th true 0
            let st := add_cube P st (cur_x + tw + sp) (cur_y + s_tl + sp) 0
              s_tw s_tl th true 0
            tile_large_small_x P row fuel (cur_x + 2 * tw + 3 * sp + s_tw)
              cur_y step_back st
      else some st

/-- Outer `while cur_y < self.length` sweep of `tile_large_small`
(src/__init__.py:315-357). -/
def tile_large_small_y (P : FloorParams) (F : ℕ) :
    ℕ → ℚ → ℚ → ℕ → GenState → Option GenState
  | 0, cur_y, _pre_y, _row, st =>
      if cur_y < P.length then none else some st
  | fuel + 1, cur_y, pre_y, row, st =>
      if cur_y < P.length then
        let start_x : ℚ := if row = 1 then (P.tile_width - P.spacing) / 2 + P.spacing
          else 0
        match tile_large_small_x P row F start_x cur_y true st with
        | none => none
        | some st =>
            let next_y :=
              if row = 0 ∨ row = 2 then pre_y + P.tile_length + P.spacing
              else pre_y + (P.tile_length - P.spacing) / 2 + P.spacing
            tile_large_small_y P F fuel next_y next_y ((row + 1) % 3) st
      else some st

/-- `archipack_floor.tile_large_small` (src/__init__.py:294-357). -/
def tile_large_small (P : FloorParams) (F : ℕ) (st : GenState) :
    Option GenState :=
  tile_large_small_y P F F 0 0 0 st

/-- Inner `while cur_y < self.length` sweep of `wood_regular`
(src/__init__.py:380-394): one column of boards of width `bw2`. -/
def wood_regular_y (P : FloorParams) (rng : ℕ → ℚ) :
    ℕ → ℚ → ℚ → ℕ → ℚ → GenState → Option GenState
  | 0, _cur_x, cur_y, _counter, _bw2, st =>
      if cur_y < P.length then none else some st
  | fuel + 1, cur_x, cur_y, counter, bw2, st =>
      if cur_y < P.length then
        let z :=
          if P.vary_thickness = true then
            uniform
              (P.thickness - P.thickness * (99 / 100) * (P.thickness_variance / 100))
              (P.thickness + P.thickness * (99 / 100) * (P.thickness_variance / 100))
              (rng st.k)
          else P.thickness
        let k1 := if P.vary_thickness = true then st.k + 1 else st.k
        let bl_raw :=
          if P.vary_length = true then
            vary_dim rng P.board_length P.length_variance k1
          else P.board_length
        let k2 := if P.vary_length = true then k1 + 1 else k1
        let bl2 :=
          if (P.max_boards ≤ counter ∧ P.vary_length = true) ∨
              P.length < cur_y + bl_raw then
            P.length - cur_y
          else bl_raw
        let st2 : GenState := { st with k := k2 }
        let st3 := add_cube P st2 cur_x cur_y 0 bw2 bl2 z true 0
        wood_regular_y P rng fuel cur_x (cur_y + bl2 + P.length_spacing)
          (counter + 1) bw2 st3
      else some st

/-- Outer `while cur_x < self.width` sweep of `wood_regular`
(src/__init__.py:368-396). -/
def wood_regular_x (P : FloorParams) (rng : ℕ → ℚ) (F : ℕ) :
    ℕ → ℚ → GenState → Option GenState
  | 0, cur_x, st =>
      if cur_x < P.width then none else some st
  | fuel + 1, cur_x, st =>
      if cur_x < P.width then
        let bw_raw :=
          if P.vary_width = true then
            vary_dim rng P.board_width P.width_variance st.k
          else P.board_width
        let k1 := if P.vary_width = true then st.k + 1 else st.k
        let bw2 :=
          if P.width < bw_raw + cur_x then P.width - cur_x else bw_raw
        let st1 : GenState := { st with k := k1 }
        match wood_regular_y P rng F cur_x 0 1 bw2 st1 with
        | none => none
        | some st2 =>
            wood_regular_x P rng F fuel (cur_x + bw2 + P.width_spacing) st2
      else some st

/-- `archipack_floor.wood_regular` (src/__init__.py:359-396). -/
def wood_regular (P : FloorParams) (rng : ℕ → ℚ) (F : ℕ) (st : GenState) :
    Option GenState :=
  wood_regular_x P rng F F 0 st

/-- One 8-vertex / 6-face board block of `wood_parquet`
(src/__init__.py:428-441 and 453-466): vertices appended directly, faces
referencing them by offset from `p = len(vs)`, six material ids `0`. -/
def parquet_block (st : GenState) (verts : List (ℚ × ℚ × ℚ)) : GenState :=
  let p := st.vs.length
  { st with
    vs := st.vs ++ verts,
    fs := st.fs ++ [(p, p + 3, p + 2, p + 1), (p + 4, p + 5, p + 6, p + 7),
                    (p, p + 4, p + 7, p + 3), (p + 3, p + 7, p + 6, p + 2),
                    (p + 1, p + 2, p + 6, p + 5), (p, p + 1, p + 5, p + 4)],
    ms := st.ms ++ List.replicate 6 0 }

/-- The `for i in range(boards_in_group)` loop of the length-oriented
parquet branch (src/__init__.py:421-441).  `cur_y` is fixed for the
group; `cur_x`, `bw2`, `bl2` are mutated across iterations; `cur_x` is
restored by the caller, so it is not returned.  Returns `(bw2, bl2, st)`. -/
def parquet_len_group (P : FloorParams) (bl cur_y : ℚ) :
    ℕ → ℚ → ℚ → ℚ → GenState → ℚ × ℚ × GenState
  | 0, _cur_x, bw2, bl2, st => (bw2, bl2, st)
  | i + 1, cur_x, bw2, bl2, st =>
    if cur_x < P.width ∧ cur_y < P.length then
      let bw2 := if cur_x < P.width ∧ P.width < cur_x + P.board_width then
        P.width - cur_x else bw2
      let bl2 := if cur_y < P.length ∧ P.length < cur_y + bl then
        P.length - cur_y else bl2
      let z := P.thickness
      let st := parquet_block st
        [(cur_x, cur_y, 0), (cur_x, cur_y, z), (cur_x + bw2, cur_y, z),
         (cur_x + bw2, cur_y, 0), (cur_x, cur_y + bl2, 0), (cur_x, cur_y + bl2, z),
         (cur_x + bw2, cur_y + bl2, z), (cur_x + bw2, cur_y + bl2, 0)]
      parquet_len_group P bl cur_y i (cur_x + bw2 + P.spacing) bw2 bl2 st
    else parquet_len_group P bl cur_y i cur_x bw2 bl2 st

/-- The `for i in range(boards_in_group)` loop of the width-oriented
parquet branch (src/__init__.py:447-466).  `cur_x` is fixed for the
group (temporarily shifted by `bl2` for the far vertices); `cur_y`,
`bw2`, `bl2` are mutated.  Returns `(cur_y, bw2, bl2, st)`. -/
def parquet_wid_group (P : FloorParams) (bl cur_x : ℚ) :
    ℕ → ℚ → ℚ → ℚ → GenState → ℚ × ℚ × ℚ × GenState
  | 0, cur_y, bw2, bl2, st => (cur_y, bw2, bl2, st)
  | i + 1, cur_y, bw2, bl2, st =>
    if cur_x < P.width ∧ cur_y < P.length then
      let bl2 := if cur_x < P.width ∧ P.width < cur_x + bl then
        P.width - cur_x else bl2
      let bw2 := if cur_y < P.length ∧ P.length < cur_y + P.board_width then
        P.length - cur_y else bw2
      let z := P.thickness
      let st := parquet_block st
        [(cur_x, cur_y + bw2, 0), (cur_x, cur_y + bw2, z), (cur_x, cur_y, z),
         (cur_x, cur_y, 0), (cur_x + bl2, cur_y + bw2, 0), (cur_x + bl2, cur_y + bw2, z),
         (cur_x + bl2, cur_y, z), (cur_x + bl2, cur_y, 0)]
      parquet_wid_group P bl cur_x i (cur_y + bw2 + P.spacing) bw2 bl2 st
    else parquet_wid_group P bl cur_x i cur_y bw2 bl2 st

/-- Inner `while cur_y < self.length` sweep of `wood_parquet`
(src/__init__.py:414-468): alternates length- and width-oriented groups
within one column. -/
def wood_parquet_y (P : FloorParams) (bl cur_x : ℚ) :
    ℕ → ℚ → Bool → GenState → Option GenState
  | 0, cur_y, _orient_length, st =>
      if cur_y < P.length then none else some st
  | fuel + 1, cur_y, orient_length, st =>
      if cur_y < P.length then
        if orient_length = true then
          let r := parquet_len_group P bl cur_y P.boards_in_group cur_x
            P.board_width bl st
          wood_parquet_y P bl cur_x fuel (cur_y + r.2.1 + P.spacing)
            (!orient_length) r.2.2
        else
          let r := parquet_wid_group P bl cur_x P.boards_in_group cur_y
            P.board_width bl st
          wood_parquet_y P bl cur_x fuel r.1 (!orient_length) r.2.2.2
      else some st

/-- Outer `while cur_x < self.width` sweep of `wood_parquet`
(src/__init__.py:411-471). -/
def wood_parquet_x (P : FloorParams) (bl : ℚ) (F : ℕ) :
    ℕ → ℚ → Bool → GenState → Option GenState
  | 0, cur_x, _start_orient_length, st =>
      if cur_x < P.width then none else some st
  | fuel + 1, cur_x, start_orient_length, st =>
      if cur_x < P.width then
        match wood_parquet_y P bl cur_x F 0 start_orient_length st with
        | none => none
        | some st =>
            wood_parquet_x P bl F fuel (cur_x + bl + P.spacing)
              (!start_orient_length) st
      else some st

/-- `archipack_floor.wood_parquet` (src/__init__.py:398-471). -/
def wood_parquet (P : FloorParams) (F : ℕ) (st : GenState) : Option GenState :=
  let bl := P.board_width * (P.boards_in_group : ℚ) +
    P.spacing * ((P.boards_in_group : ℚ) - 1)
  wood_parquet_x P bl F F 0 true st

/-- `archipack_floor.update_data` (src/__init__.py:473-488): resets the
buffers and dispatches on material family and style. -/
def update_data (P : FloorParams) (rng : ℕ → ℚ) (F : ℕ) : Option GenState :=
  let st := GenState.empty
  match P.floor_material with
  | .wood =>
    match P.wood_styles with
    | .regular => wood_regular P rng F st
    | .parquet => wood_parquet P F st
    | _ => some st
  | .tile =>
    let st := tile_grout P st
    match P.tile_styles with
    | .regular => tile_regular P rng F st
    | .large_small => tile_large_small P F st
    | _ => some st

/-- The `matids` property (src/__init__.py:511-516): returns the empty
list, ignoring the accumulated `ms` buffer. -/
def matids (_st : GenState) : List ℕ := []

/-- The `uvs` property (src/__init__.py:504-509): returns the empty list. -/
def uvs (_st : GenState) : List (ℚ × ℚ) := []

/-- The emitted-box log of a possibly fuel-exhausted run. -/
def boxesOf (o : Option GenState) : List Box :=
  (o.map GenState.boxes).getD []

/-! ## Basic lemmas about the box-emission primitive -/

/-- The post-clip width of an emitted box. -/
def clipW (P : FloorParams) (x w : ℚ) : ℚ :=
  if P.width < x + w then P.width - x else w

/-- The post-clip length of an emitted box. -/
def clipL (P : FloorParams) (y l : ℚ) : ℚ :=
  if P.length < y + l then P.length - y else l

theorem add_cube_skip (P : FloorParams) (st : GenState) (x y z w l t : ℚ)
    (m : ℕ) (h : P.width ≤ x ∨ P.length ≤ y) :
    add_cube P st x y z w l t true m = st := by
  simp [add_cube, h]

theorem add_cube_emit (P : FloorParams) (st : GenState) (x y z w l t : ℚ)
    (m : ℕ) (hx : x < P.width) (hy : y < P.length) :
    add_cube P st x y z w l t true m =
      { st with
        vs := st.vs ++ [(x, y, z), (x, y, z + t),
          (x + clipW P x w, y, z), (x + clipW P x w, y, z + t),
          (x, y + clipL P y l, z), (x, y + clipL P y l, z + t),
          (x + clipW P x w, y + clipL P y l, z),
          (x + clipW P x w, y + clipL P y l, z + t)],
        fs := st.fs ++ [(st.vs.length, st.vs.length + 2, st.vs.length + 3, st.vs.length + 1),
          (st.vs.length + 2, st.vs.length + 6, st.vs.length + 7, st.vs.length + 3),
          (st.vs.length + 1, st.vs.length + 3, st.vs.length + 7, st.vs.length + 5),
          (st.vs.length + 6, st.vs.length + 4, st.vs.length + 5, st.vs.length + 7),
          (st.vs.length, st.vs.length + 1, st.vs.length + 5, st.vs.length + 4),
          (st.vs.length, st.vs.length + 4, st.vs.length + 6, st.vs.length + 2)],
        ms := st.ms ++ List.replicate 6 m,
        boxes := st.boxes ++
          [{ x := x, y := y, z := z, w := clipW P x w, l := clipL P y l,
             t := t, w0 := w, l0 := l }] } := by
  have h : ¬ (true = true ∧ (P.width ≤ x ∨ P.length ≤ y)) := by
    push_neg
    intro _
    constructor <;> linarith
  simp only [add_cube, if_neg h, clipW, clipL, true_and]
  have h2 : ¬ (P.width ≤ x ∨ P.length ≤ y) := by
    push_neg
    constructor <;> linarith
  rw [if_neg h2]

/-! ## The extension (append-only) relation -/

/-- `Ext st st'`: `st'` extends every buffer of `st` (append-only). -/
def Ext (st st' : GenState) : Prop :=
  st.vs <+: st'.vs ∧ st.fs <+: st'.fs ∧ st.ms <+: st'.ms ∧ st.boxes <+: st'.boxes

theorem Ext.refl_ext (st : GenState) : Ext st st :=
  ⟨List.prefix_refl _, List.prefix_refl _, List.prefix_refl _, List.prefix_refl _⟩

theorem Ext.trans_ext {a b c : GenState} (h1 : Ext a b) (h2 : Ext b c) : Ext a c :=
  ⟨h1.1.trans h2.1, h1.2.1.trans h2.2.1, h1.2.2.1.trans h2.2.2.1,
    h1.2.2.2.trans h2.2.2.2⟩

theorem ext_add_cube (P : FloorParams) (st : GenState) (x y z w l t : ℚ)
    (c : Bool) (m : ℕ) : Ext st (add_cube P st x y z w l t c m) := by
  unfold add_cube
  split
  · exact Ext.refl_ext st
  · exact ⟨⟨_, rfl⟩, ⟨_, rfl⟩, ⟨_, rfl⟩, ⟨_, rfl⟩⟩

theorem ext_set_k (st : GenState) (n : ℕ) : Ext st { st with k := n } :=
  ⟨List.prefix_refl _, List.prefix_refl _, List.prefix_refl _,
    List.prefix_refl _⟩

theorem ext_parquet_block (st : GenState) (verts : List (ℚ × ℚ × ℚ)) :
    Ext st (parquet_block st verts) :=
  ⟨⟨_, rfl⟩, ⟨_, rfl⟩, ⟨_, rfl⟩, List.prefix_refl _⟩

theorem Ext.ite_ext {c : Prop} [Decidable c] {st a b : GenState} (ha : Ext st a)
    (hb : Ext st b) : Ext st (if c then a else b) := by
  split
  · exact ha
  · exact hb

theorem ext_tile_regular_x (P : FloorParams) (rng : ℕ → ℚ) (fuel : ℕ) :
    ∀ cur_x cur_y tl2 off st st',
      tile_regular_x P rng fuel cur_x cur_y tl2 off st = some st' →
        Ext st st' := by
  induction fuel with
  | zero =>
    intro cur_x cur_y tl2 off st st' h
    simp only [tile_regular_x] at h
    split at h
    · exact absurd h (by simp)
    · exact Option.some.inj h ▸ Ext.refl_ext st
  | succ n ih =>
    intro cur_x cur_y tl2 off st st' h
    simp only [tile_regular_x] at h
    split at h
    · exact ((ext_set_k st _).trans_ext (ext_add_cube P _ _ _ _ _ _ _ _ _)).trans_ext
        (ih _ _ _ _ _ _ h)
    · exact Option.some.inj h ▸ Ext.refl_ext st

theorem ext_tile_regular_y (P : FloorParams) (rng : ℕ → ℚ) (F : ℕ) (fuel : ℕ) :
    ∀ cur_y off st st',
      tile_regular_y P rng F fuel cur_y off st = some st' → Ext st st' := by
  induction fuel with
  | zero =>
    intro cur_y off st st' h
    simp only [tile_regular_y] at h
    split at h
    · exact absurd h (by simp)
    · exact Option.some.inj h ▸ Ext.refl_ext st
  | succ n ih =>
    intro cur_y off st st' h
    simp only [tile_regular_y] at h
    split at h
    · rcases hm : tile_regular_x P rng F 0 cur_y _ off st with _ | st1
      · rw [hm] at h
        exact absurd h (by simp)
      · rw [hm] at h
        exact (ext_tile_regular_x P rng F _ _ _ _ _ _ hm).trans_ext (ih _ _ _ _ h)
    · exact Option.some.inj h ▸ Ext.refl_ext st

theorem ext_tile_large_small_x (P : FloorParams) (row : ℕ) (fuel : ℕ) :
    ∀ cur_x cur_y sb st st',
      tile_large_small_x P row fuel cur_x cur_y sb st = some st' →
        Ext st st' := by
  induction fuel with
  | zero =>
    intro cur_x cur_y sb st st' h
    simp only [tile_large_small_x] at h
    split at h
    · exact absurd h (by simp)
    · exact Option.some.inj h ▸ Ext.refl_ext st
  | succ n ih =>
    intro cur_x cur_y sb st st' h
    simp only [tile_large_small_x] at h
    split at h
    · split at h
      · split at h
        · exact (((Ext.ite_ext (ext_add_cube P _ _ _ _ _ _ _ _ _)
            (ext_add_cube P _ _ _ _ _ _ _ _ _)).trans_ext
            (ext_add_cube P _ _ _ _ _ _ _ _ _)).trans_ext (ih _ _ _ _ _ h))
        · exact (((Ext.ite_ext (ext_add_cube P _ _ _ _ _ _ _ _ _)
            (ext_add_cube P _ _ _ _ _ _ _ _ _)).trans_ext
            (ext_add_cube P _ _ _ _ _ _ _ _ _)).trans_ext (ih _ _ _ _ _ h))
      · split at h
        · exact ((((ext_add_cube P _ _ _ _ _ _ _ _ _).trans_ext
            (ext_add_cube P _ _ _ _ _ _ _ _ _)).trans_ext
            (ext_add_cube P _ _ _ _ _ _ _ _ _)).trans_ext (ih _ _ _ _ _ h))
        · exact (((ext_add_cube P _ _ _ _ _ _ _ _ _).trans_ext
            (ext_add_cube P _ _ _ _ _ _ _ _ _)).trans_ext (ih _ _ _ _ _ h))
    · exact Option.some.inj h ▸ Ext.refl_ext st

theorem ext_tile_large_small_y (P : FloorParams) (F : ℕ) (fuel : ℕ) :
    ∀ cur_y pre_y row st st',
      tile_large_small_y P F fuel cur_y pre_y row st = some st' →
        Ext st st' := by
  induction fuel with
  | zero =>
    intro cur_y pre_y row st st' h
    simp only [tile_large_small_y] at h
    split at h
    · exact absurd h (by simp)
    · exact Option.some.inj h ▸ Ext.refl_ext st
  | succ n ih =>
    intro cur_y pre_y row st st' h
    simp only [tile_large_small_y] at h
    split at h
    · rcases hm : tile_large_small_x P row F _ cur_y true st with _ | st1
      · rw [hm] at h
        exact absurd h (by simp)
      · rw [hm] at h
        exact (ext_tile_large_small_x P row F _ _ _ _ _ hm).trans_ext
          (ih _ _ _ _ _ h)
    · exact Option.some.inj h ▸ Ext.refl_ext st

theorem ext_wood_regular_y (P : FloorParams) (rng : ℕ → ℚ) (fuel : ℕ) :
    ∀ cur_x cur_y counter bw2 st st',
      wood_regular_y P rng fuel cur_x cur_y counter bw2 st = some st' →
        Ext st st' := by
  induction fuel with
  | zero =>
    intro cur_x cur_y counter bw2 st st' h
    simp only [wood_regular_y] at h
    split at h
    · exact absurd h (by simp)
    · exact Option.some.inj h ▸ Ext.refl_ext st
  | succ n ih =>
    intro cur_x cur_y counter bw2 st st' h
    simp only [wood_regular_y] at h
    split at h
    · exact (((ext_set_k st _).trans_ext ((ext_set_k _ _).trans_ext
        (ext_add_cube P _ _ _ _ _ _ _ _ _))).trans_ext (ih _ _ _ _ _ _ h))
    · exact Option.some.inj h ▸ Ext.refl_ext st

theorem ext_wood_regular_x (P : FloorParams) (rng : ℕ → ℚ) (F : ℕ) (fuel : ℕ) :
    ∀ cur_x st st',
      wood_regular_x P rng F fuel cur_x st = some st' → Ext st st' := by
  induction fuel with
  | zero =>
    intro cur_x st st' h
    simp only [wood_regular_x] at h
    split at h
    · exact absurd h (by simp)
    · exact Option.some.inj h ▸ Ext.refl_ext st
  | succ n ih =>
    intro cur_x st st' h
    simp only [wood_regular_x] at h
    split at h
    · rcases hm : wood_regular_y P rng F cur_x 0 1 _ _ with _ | st2
      · rw [hm] at h
        exact absurd h (by simp)
      · rw [hm] at h
        exact ((ext_set_k st _).trans_ext
          (ext_wood_regular_y P rng F _ _ _ _ _ _ hm)).trans_ext (ih _ _ _ h)
    · exact Option.some.inj h ▸ Ext.refl_ext st

theorem ext_parquet_len_group (P : FloorParams) (bl cur_y : ℚ) (i : ℕ) :
    ∀ cur_x bw2 bl2 st,
      Ext st (parquet_len_group P bl cur_y i cur_x bw2 bl2 st).2.2 := by
  induction i with
  | zero => intro cur_x bw2 bl2 st; exact Ext.refl_ext st
  | succ n ih =>
    intro cur_x bw2 bl2 st
    simp only [parquet_len_group]
    split
    · exact (ext_parquet_block st _).trans_ext (ih _ _ _ _)
    · exact ih _ _ _ _

theorem ext_parquet_wid_group (P : FloorParams) (bl cur_x : ℚ) (i : ℕ) :
    ∀ cur_y bw2 bl2 st,
      Ext st (parquet_wid_group P bl cur_x i cur_y bw2 bl2 st).2.2.2 := by
  induction i with
  | zero => intro cur_y bw2 bl2 st; exact Ext.refl_ext st
  | succ n ih =>
    intro cur_y bw2 bl2 st
    simp only [parquet_wid_group]
    split
    · exact (ext_parquet_block st _).trans_ext (ih _ _ _ _)
    · exact ih _ _ _ _

theorem ext_wood_parquet_y (P : FloorParams) (bl cur_x : ℚ) (fuel : ℕ) :
    ∀ cur_y ol st st',
      wood_parquet_y P bl cur_x fuel cur_y ol st = some st' → Ext st st' := by
  induction fuel with
  | zero =>
    intro cur_y ol st st' h
    simp only [wood_parquet_y] at h
    split at h
    · exact absurd h (by simp)
    · exact Option.some.inj h ▸ Ext.refl_ext st
  | succ n ih =>
    intro cur_y ol st st' h
    simp only [wood_parquet_y] at h
    split at h
    · split at h
      · exact (ext_parquet_len_group P bl cur_y P.boards_in_group cur_x
          P.board_width bl st).trans_ext (ih _ _ _ _ h)
      · exact (ext_parquet_wid_group P bl cur_x P.boards_in_group cur_y
          P.board_width bl st).trans_ext (ih _ _ _ _ h)
    · exact Option.some.inj h ▸ Ext.refl_ext st

theorem ext_wood_parquet_x (P : FloorParams) (bl : ℚ) (F : ℕ) (fuel : ℕ) :
    ∀ cur_x so st st',
      wood_parquet_x P bl F fuel cur_x so st = some st' → Ext st st' := by
  induction fuel with
  | zero =>
    intro cur_x so st st' h
    simp only [wood_parquet_x] at h
    split at h
    · exact absurd h (by simp)
    · exact Option.some.inj h ▸ Ext.refl_ext st
  | succ n ih =>
    intro cur_x so st st' h
    simp only [wood_parquet_x] at h
    split at h
    · rcases hm : wood_parquet_y P bl cur_x F 0 so st with _ | st1
      · rw [hm] at h
        exact absurd h (by simp)
      · rw [hm] at h
        exact (ext_wood_parquet_y P bl cur_x F _ _ _ _ hm).trans_ext (ih _ _ _ _ h)
    · exact Option.some.inj h ▸ Ext.refl_ext st

theorem ext_wood_regular (P : FloorParams) (rng : ℕ → ℚ) (F : ℕ)
    (st st' : GenState) (h : wood_regular P rng F st = some st') : Ext st st' :=
  ext_wood_regular_x P rng F F 0 st st' h

theorem ext_wood_parquet (P : FloorParams) (F : ℕ) (st st' : GenState)
    (h : wood_parquet P F st = some st') : Ext st st' :=
  ext_wood_parquet_x P _ F F 0 true st st' h

theorem ext_tile_regular (P : FloorParams) (rng : ℕ → ℚ) (F : ℕ)
    (st st' : GenState) (h : tile_regular P rng F st = some st') : Ext st st' :=
  ext_tile_regular_y P rng F F 0 false st st' h

theorem ext_tile_large_small (P : FloorParams) (F : ℕ) (st st' : GenState)
    (h : tile_large_small P F st = some st') : Ext st st' :=
  ext_tile_large_small_y P F F 0 0 0 st st' h

/-! ## The buffer well-formedness invariant

Every emission appends exactly 8 vertices, 6 faces and 6 material ids,
and the 6 new faces reference only the 8 new vertices.  Hence face
number `i` (0-based) belongs to block `i / 6` and references only
indices below `8 * (i / 6) + 8` — the vertex count at the moment that
face was appended. -/

/-- All four indices of a face quad are below `n`. -/
def InvFace (n : ℕ) : ℕ × ℕ × ℕ × ℕ → Prop
  | (a, b, c, d) => a < n ∧ b < n ∧ c < n ∧ d < n

/-- Buffer well-formedness: material ids parallel the faces, buffers grow
in 8-vertex / 6-face blocks, and face `i` references only vertices that
existed when it was appended. -/
def Inv (st : GenState) : Prop :=
  st.ms.length = st.fs.length ∧
  (∃ k, st.fs.length = 6 * k ∧ st.vs.length = 8 * k) ∧
  ∀ i, i < st.fs.length →
    InvFace (8 * (i / 6) + 8) (st.fs.getD i (0, 0, 0, 0))

theorem inv_empty : Inv GenState.empty := by
  refine ⟨rfl, ⟨0, rfl, rfl⟩, ?_⟩
  intro i h
  simp [GenState.empty] at h

/-- Appending one 8-vertex / 6-face / 6-id block whose faces reference
only indices below the new vertex count preserves `Inv`. -/
theorem inv_append {st st' : GenState} (faces : List (ℕ × ℕ × ℕ × ℕ))
    (h : Inv st)
    (hv : st'.vs.length = st.vs.length + 8)
    (hf : st'.fs = st.fs ++ faces)
    (hm : st'.ms.length = st.ms.length + 6)
    (hflen : faces.length = 6)
    (hface : ∀ f ∈ faces, InvFace (st.vs.length + 8) f) : Inv st' := by
  obtain ⟨hpar, ⟨k, hk6, hk8⟩, hidx⟩ := h
  have hfl : st'.fs.length = st.fs.length + 6 := by
    rw [hf, List.length_append, hflen]
  refine ⟨by omega, ⟨k + 1, by omega, by omega⟩, ?_⟩
  intro i hi
  rcases lt_or_ge i st.fs.length with hlt | hge
  · rw [hf, List.getD_append _ _ _ _ hlt]
    exact hidx i hlt
  · have hi' : i - st.fs.length < faces.length := by omega
    rw [hf, List.getD_append_right _ _ _ _ hge]
    have hmem : faces.getD (i - st.fs.length) (0, 0, 0, 0) ∈ faces := by
      rw [List.getD_eq_getElem _ _ hi']
      exact List.getElem_mem hi'
    have hfb := hface _ hmem
    have hkle : st.vs.length + 8 ≤ 8 * (i / 6) + 8 := by
      have : k ≤ i / 6 := (Nat.le_div_iff_mul_le (by omega)).mpr (by omega)
      omega
    revert hfb
    rcases faces.getD (i - st.fs.length) (0, 0, 0, 0) with ⟨a, b, c, d⟩
    rintro ⟨h1, h2, h3, h4⟩
    exact ⟨by omega, by omega, by omega, by omega⟩

theorem inv_add_cube (P : FloorParams) (st : GenState) (x y z w l t : ℚ)
    (c : Bool) (m : ℕ) (h : Inv st) : Inv (add_cube P st x y z w l t c m) := by
  unfold add_cube
  split
  · exact h
  · refine @inv_append st _ _ h (by simp) rfl (by simp) (by simp) ?_
    intro f hf
    simp only [List.mem_cons, List.mem_singleton, List.not_mem_nil, or_false] at hf
    rcases hf with rfl | rfl | rfl | rfl | rfl | rfl <;>
      exact ⟨by omega, by omega, by omega, by omega⟩

theorem inv_parquet_block (st : GenState) (verts : List (ℚ × ℚ × ℚ))
    (hv : verts.length = 8) (h : Inv st) : Inv (parquet_block st verts) := by
  refine @inv_append st _ _ h (by simp [parquet_block, hv]) rfl
    (by simp [parquet_block]) (by simp [parquet_block]) ?_
  intro f hf
  simp only [List.mem_cons, List.mem_singleton, List.not_mem_nil, or_false] at hf
  rcases hf with rfl | rfl | rfl | rfl | rfl | rfl <;>
    exact ⟨by omega, by omega, by omega, by omega⟩

theorem inv_set_k {st : GenState} (n : ℕ) (h : Inv st) :
    Inv { st with k := n } := h

theorem inv_tile_grout (P : FloorParams) (st : GenState) (h : Inv st) :
    Inv (tile_grout P st) :=
  inv_add_cube P st _ _ _ _ _ _ _ _ h

theorem Inv.ite_inv {c : Prop} [Decidable c] {a b : GenState} (ha : Inv a)
    (hb : Inv b) : Inv (if c then a else b) := by
  split
  · exact ha
  · exact hb

theorem inv_tile_regular_x (P : FloorParams) (rng : ℕ → ℚ) (fuel : ℕ) :
    ∀ cur_x cur_y tl2 off st st',
      tile_regular_x P rng fuel cur_x cur_y tl2 off st = some st' →
        Inv st → Inv st' := by
  induction fuel with
  | zero =>
    intro cur_x cur_y tl2 off st st' h hi
    simp only [tile_regular_x] at h
    split at h
    · exact absurd h (by simp)
    · exact Option.some.inj h ▸ hi
  | succ n ih =>
    intro cur_x cur_y tl2 off st st' h hi
    simp only [tile_regular_x] at h
    split at h
    · exact ih _ _ _ _ _ _ h (inv_add_cube P _ _ _ _ _ _ _ _ _ (inv_set_k _ hi))
    · exact Option.some.inj h ▸ hi

theorem inv_tile_regular_y (P : FloorParams) (rng : ℕ → ℚ) (F : ℕ) (fuel : ℕ) :
    ∀ cur_y off st st',
      tile_regular_y P rng F fuel cur_y off st = some st' → Inv st → Inv st' := by
  induction fuel with
  | zero =>
    intro cur_y off st st' h hi
    simp only [tile_regular_y] at h
    split at h
    · exact absurd h (by simp)
    · exact Option.some.inj h ▸ hi
  | succ n ih =>
    intro cur_y off st st' h hi
    simp only [tile_regular_y] at h
    split at h
    · rcases hm : tile_regular_x P rng F 0 cur_y _ off st with _ | st1
      · rw [hm] at h
        exact absurd h (by simp)
      · rw [hm] at h
        exact ih _ _ _ _ h (inv_tile_regular_x P rng F _ _ _ _ _ _ hm hi)
    · exact Option.some.inj h ▸ hi

theorem inv_tile_large_small_x (P : FloorParams) (row : ℕ) (fuel : ℕ) :
    ∀ cur_x cur_y sb st st',
      tile_large_small_x P row fuel cur_x cur_y sb st = some st' →
        Inv st → Inv st' := by
  induction fuel with
  | zero =>
    intro cur_x cur_y sb st st' h hi
    simp only [tile_large_small_x] at h
    split at h
    · exact absurd h (by simp)
    · exact Option.some.inj h ▸ hi
  | succ n ih =>
    intro cur_x cur_y sb st st' h hi
    simp only [tile_large_small_x] at h
    split at h
    · split at h
      · split at h
        · exact ih _ _ _ _ _ h (inv_add_cube P _ _ _ _ _ _ _ _ _
            (Inv.ite_inv (inv_add_cube P _ _ _ _ _ _ _ _ _ hi)
              (inv_add_cube P _ _ _ _ _ _ _ _ _ hi)))
        · exact ih _ _ _ _ _ h (inv_add_cube P _ _ _ _ _ _ _ _ _
            (Inv.ite_inv (inv_add_cube P _ _ _ _ _ _ _ _ _ hi)
              (inv_add_cube P _ _ _ _ _ _ _ _ _ hi)))
      · split at h
        · exact ih _ _ _ _ _ h (inv_add_cube P _ _ _ _ _ _ _ _ _
            (inv_add_cube P _ _ _ _ _ _ _ _ _
              (inv_add_cube P _ _ _ _ _ _ _ _ _ hi)))
        · exact ih _ _ _ _ _ h (inv_add_cube P _ _ _ _ _ _ _ _ _
            (inv_add_cube P _ _ _ _ _ _ _ _ _ hi))
    · exact Option.some.inj h ▸ hi

theorem inv_tile_large_small_y (P : FloorParams) (F : ℕ) (fuel : ℕ) :
    ∀ cur_y pre_y row st st',
      tile_large_small_y P F fuel cur_y pre_y row st = some st' →
        Inv st → Inv st' := by
  induction fuel with
  | zero =>
    intro cur_y pre_y row st st' h hi
    simp only [tile_large_small_y] at h
    split at h
    · exact absurd h (by simp)
    · exact Option.some.inj h ▸ hi
  | succ n ih =>
    intro cur_y pre_y row st st' h hi
    simp only [tile_large_small_y] at h
    split at h
    · rcases hm : tile_large_small_x P row F _ cur_y true st with _ | st1
      · rw [hm] at h
        exact absurd h (by simp)
      · rw [hm] at h
        exact ih _ _ _ _ _ h (inv_tile_large_small_x P row F _ _ _ _ _ hm hi)
    · exact Option.some.inj h ▸ hi

theorem inv_wood_regular_y (P : FloorParams) (rng : ℕ → ℚ) (fuel : ℕ) :
    ∀ cur_x cur_y counter bw2 st st',
      wood_regular_y P rng fuel cur_x cur_y counter bw2 st = some st' →
        Inv st → Inv st' := by
  induction fuel with
  | zero =>
    intro cur_x cur_y counter bw2 st st' h hi
    simp only [wood_regular_y] at h
    split at h
    · exact absurd h (by simp)
    · exact Option.some.inj h ▸ hi
  | succ n ih =>
    intro cur_x cur_y counter bw2 st st' h hi
    simp only [wood_regular_y] at h
    split at h
    · exact ih _ _ _ _ _ _ h
        (inv_add_cube P _ _ _ _ _ _ _ _ _ (inv_set_k _ (inv_set_k _ hi)))
    · exact Option.some.inj h ▸ hi

theorem inv_wood_regular_x (P : FloorParams) (rng : ℕ → ℚ) (F : ℕ) (fuel : ℕ) :
    ∀ cur_x st st',
      wood_regular_x P rng F fuel cur_x st = some st' → Inv st → Inv st' := by
  induction fuel with
  | zero =>
    intro cur_x st st' h hi
    simp only [wood_regular_x] at h
    split at h
    · exact absurd h (by simp)
    · exact Option.some.inj h ▸ hi
  | succ n ih =>
    intro cur_x st st' h hi
    simp only [wood_regular_x] at h
    split at h
    · rcases hm : wood_regular_y P rng F cur_x 0 1 _ _ with _ | st2
      · rw [hm] at h
        exact absurd h (by simp)
      · rw [hm] at h
        exact ih _ _ _ h
          (inv_wood_regular_y P rng F _ _ _ _ _ _ hm (inv_set_k _ hi))
    · exact Option.some.inj h ▸ hi

theorem inv_parquet_len_group (P : FloorParams) (bl cur_y : ℚ) (i : ℕ) :
    ∀ cur_x bw2 bl2 st, Inv st →
      Inv (parquet_len_group P bl cur_y i cur_x bw2 bl2 st).2.2 := by
  induction i with
  | zero => intro cur_x bw2 bl2 st hi; exact hi
  | succ n ih =>
    intro cur_x bw2 bl2 st hi
    simp only [parquet_len_group]
    split
    · exact ih _ _ _ _ (inv_parquet_block st _ (by simp) hi)
    · exact ih _ _ _ _ hi

theorem inv_parquet_wid_group (P : FloorParams) (bl cur_x : ℚ) (i : ℕ) :
    ∀ cur_y bw2 bl2 st, Inv st →
      Inv (parquet_wid_group P bl cur_x i cur_y bw2 bl2 st).2.2.2 := by
  induction i with
  | zero => intro cur_y bw2 bl2 st hi; exact hi
  | succ n ih =>
    intro cur_y bw2 bl2 st hi
    simp only [parquet_wid_group]
    split
    · exact ih _ _ _ _ (inv_parquet_block st _ (by simp) hi)
    · exact ih _ _ _ _ hi

theorem inv_wood_parquet_y (P : FloorParams) (bl cur_x : ℚ) (fuel : ℕ) :
    ∀ cur_y ol st st',
      wood_parquet_y P bl cur_x fuel cur_y ol st = some st' →
        Inv st → Inv st' := by
  induction fuel with
  | zero =>
    intro cur_y ol st st' h hi
    simp only [wood_parquet_y] at h
    split at h
    · exact absurd h (by simp)
    · exact Option.some.inj h ▸ hi
  | succ n ih =>
    intro cur_y ol st st' h hi
    simp only [wood_parquet_y] at h
    split at h
    · split at h
      · exact ih _ _ _ _ h
          (inv_parquet_len_group P bl cur_y P.boards_in_group _ _ _ _ hi)
      · exact ih _ _ _ _ h
          (inv_parquet_wid_group P bl cur_x P.boards_in_group _ _ _ _ hi)
    · exact Option.some.inj h ▸ hi

theorem inv_wood_parquet_x (P : FloorParams) (bl : ℚ) (F : ℕ) (fuel : ℕ) :
    ∀ cur_x so st st',
      wood_parquet_x P bl F fuel cur_x so st = some st' → Inv st → Inv st' := by
  induction fuel with
  | zero =>
    intro cur_x so st st' h hi
    simp only [wood_parquet_x] at h
    split at h
    · exact absurd h (by simp)
    · exact Option.some.inj h ▸ hi
  | succ n ih =>
    intro cur_x so st st' h hi
    simp only [wood_parquet_x] at h
    split at h
    · rcases hm : wood_parquet_y P bl cur_x F 0 so st with _ | st1
      · rw [hm] at h
        exact absurd h (by simp)
      · rw [hm] at h
        exact ih _ _ _ _ h (inv_wood_parquet_y P bl cur_x F _ _ _ _ hm hi)
    · exact Option.some.inj h ▸ hi

/-- Any completed `update_data` run satisfies the buffer invariant. -/
theorem inv_update_data (P : FloorParams) (rng : ℕ → ℚ) (F : ℕ)
    (st : GenState) (h : update_data P rng F = some st) : Inv st := by
  unfold update_data at h
  rcases hFM : P.floor_material with _ | _ <;> rw [hFM] at h
  · rcases hWS : P.wood_styles with _ | _ | _ | _ <;> rw [hWS] at h
    · exact inv_wood_regular_x P rng F F 0 _ _ h inv_empty
    · exact inv_wood_parquet_x P _ F F 0 true _ _ h inv_empty
    · exact Option.some.inj h ▸ inv_empty
    · exact Option.some.inj h ▸ inv_empty
  · rcases hTS : P.tile_styles with _ | _ | _ | _ <;> rw [hTS] at h
    · exact inv_tile_regular_y P rng F F 0 false _ _ h
        (inv_tile_grout P _ inv_empty)
    · exact inv_tile_large_small_y P F F 0 0 0 _ _ h
        (inv_tile_grout P _ inv_empty)
    · exact Option.some.inj h ▸ inv_tile_grout P _ inv_empty
    · exact Option.some.inj h ▸ inv_tile_grout P _ inv_empty

theorem invFace_mono {n m : ℕ} (h : n ≤ m) :
    ∀ f, InvFace n f → InvFace m f
  | (_, _, _, _), ⟨h1, h2, h3, h4⟩ => ⟨by omega, by omega, by omega, by omega⟩

/-! ## Material-id tracking for the tile styles

Every tile-pattern emission after the grout slab uses material id `0`, so
the `ms` buffer only ever grows by zeros once the slab's six `1`s are in
place. -/

/-- `st'` extends `st.ms` by zeros only. -/
def MsZeroExt (st st' : GenState) : Prop :=
  ∃ l2, st'.ms = st.ms ++ l2 ∧ ∀ m ∈ l2, m = 0

theorem MsZeroExt.refl_msz (st : GenState) : MsZeroExt st st :=
  ⟨[], by simp, by simp⟩

theorem MsZeroExt.trans_msz {a b c : GenState} (h1 : MsZeroExt a b)
    (h2 : MsZeroExt b c) : MsZeroExt a c := by
  obtain ⟨l1, e1, z1⟩ := h1
  obtain ⟨l2, e2, z2⟩ := h2
  refine ⟨l1 ++ l2, by rw [e2, e1, List.append_assoc], ?_⟩
  intro m hm
  rcases List.mem_append.mp hm with hm | hm
  · exact z1 m hm
  · exact z2 m hm

theorem MsZeroExt.ite_msz {c : Prop} [Decidable c] {st a b : GenState}
    (ha : MsZeroExt st a) (hb : MsZeroExt st b) :
    MsZeroExt st (if c then a else b) := by
  split
  · exact ha
  · exact hb

theorem msz_add_cube (P : FloorParams) (st : GenState) (x y z w l t : ℚ)
    (c : Bool) : MsZeroExt st (add_cube P st x y z w l t c 0) := by
  unfold add_cube
  split
  · exact MsZeroExt.refl_msz st
  · exact ⟨List.replicate 6 0, rfl, by simp⟩

theorem msz_set_k {st : GenState} (n : ℕ) : MsZeroExt st { st with k := n } :=
  MsZeroExt.refl_msz st

theorem msz_tile_regular_x (P : FloorParams) (rng : ℕ → ℚ) (fuel : ℕ) :
    ∀ cur_x cur_y tl2 off st st',
      tile_regular_x P rng fuel cur_x cur_y tl2 off st = some st' →
        MsZeroExt st st' := by
  induction fuel with
  | zero =>
    intro cur_x cur_y tl2 off st st' h
    simp only [tile_regular_x] at h
    split at h
    · exact absurd h (by simp)
    · exact Option.some.inj h ▸ MsZeroExt.refl_msz st
  | succ n ih =>
    intro cur_x cur_y tl2 off st st' h
    simp only [tile_regular_x] at h
    split at h
    · exact ((msz_set_k _).trans_msz (msz_add_cube P _ _ _ _ _ _ _ _)).trans_msz
        (ih _ _ _ _ _ _ h)
    · exact Option.some.inj h ▸ MsZeroExt.refl_msz st

theorem msz_tile_regular_y (P : FloorParams) (rng : ℕ → ℚ) (F : ℕ) (fuel : ℕ) :
    ∀ cur_y off st st',
      tile_regular_y P rng F fuel cur_y off st = some st' →
        MsZeroExt st st' := by
  induction fuel with
  | zero =>
    intro cur_y off st st' h
    simp only [tile_regular_y] at h
    split at h
    · exact absurd h (by simp)
    · exact Option.some.inj h ▸ MsZeroExt.refl_msz st
  | succ n ih =>
    intro cur_y off st st' h
    simp only [tile_regular_y] at h
    split at h
    · rcases hm : tile_regular_x P rng F 0 cur_y _ off st with _ | st1
      · rw [hm] at h
        exact absurd h (by simp)
      · rw [hm] at h
        exact (msz_tile_regular_x P rng F _ _ _ _ _ _ hm).trans_msz (ih _ _ _ _ h)
    · exact Option.some.inj h ▸ MsZeroExt.refl_msz st

theorem msz_tile_large_small_x (P : FloorParams) (row : ℕ) (fuel : ℕ) :
    ∀ cur_x cur_y sb st st',
      tile_large_small_x P row fuel cur_x cur_y sb st = some st' →
        MsZeroExt st st' := by
  induction fuel with
  | zero =>
    intro cur_x cur_y sb st st' h
    simp only [tile_large_small_x] at h
    split at h
    · exact absurd h (by simp)
    · exact Option.some.inj h ▸ MsZeroExt.refl_msz st
  | succ n ih =>
    intro cur_x cur_y sb st st' h
    simp only [tile_large_small_x] at h
    split at h
    · split at h
      · split at h
        · exact ((MsZeroExt.ite_msz (msz_add_cube P _ _ _ _ _ _ _ _)
            (msz_add_cube P _ _ _ _ _ _ _ _)).trans_msz
            (msz_add_cube P _ _ _ _ _ _ _ _)).trans_msz (ih _ _ _ _ _ h)
        · exact ((MsZeroExt.ite_msz (msz_add_cube P _ _ _ _ _ _ _ _)
            (msz_add_cube P _ _ _ _ _ _ _ _)).trans_msz
            (msz_add_cube P _ _ _ _ _ _ _ _)).trans_msz (ih _ _ _ _ _ h)
      · split at h
        · exact (((msz_add_cube P _ _ _ _ _ _ _ _).trans_msz
            (msz_add_cube P _ _ _ _ _ _ _ _)).trans_msz
            (msz_add_cube P _ _ _ _ _ _ _ _)).trans_msz (ih _ _ _ _ _ h)
        · exact ((msz_add_cube P _ _ _ _ _ _ _ _).trans_msz
            (msz_add_cube P _ _ _ _ _ _ _ _)).trans_msz (ih _ _ _ _ _ h)
    · exact Option.some.inj h ▸ MsZeroExt.refl_msz st

theorem msz_tile_large_small_y (P : FloorParams) (F : ℕ) (fuel : ℕ) :
    ∀ cur_y pre_y row st st',
      tile_large_small_y P F fuel cur_y pre_y row st = some st' →
        MsZeroExt st st' := by
  induction fuel with
  | zero =>
    intro cur_y pre_y row st st' h
    simp only [tile_large_small_y] at h
    split at h
    · exact absurd h (by simp)
    · exact Option.some.inj h ▸ MsZeroExt.refl_msz st
  | succ n ih =>
    intro cur_y pre_y row st st' h
    simp only [tile_large_small_y] at h
    split at h
    · rcases hm : tile_large_small_x P row F _ cur_y true st with _ | st1
      · rw [hm] at h
        exact absurd h (by simp)
      · rw [hm] at h
        exact (msz_tile_large_small_x P row F _ _ _ _ _ hm).trans_msz
          (ih _ _ _ _ _ h)
    · exact Option.some.inj h ▸ MsZeroExt.refl_msz st

/-- The grout slab emitted on an empty state, written out explicitly
(`0 < W`, `0 < L` so the slab is neither skipped nor clipped). -/
theorem tile_grout_empty (P : FloorParams) (hw : 0 < P.width)
    (hl : 0 < P.length) :
    tile_grout P GenState.empty =
      { vs := [(0, 0, 0), (0, 0, P.thickness - P.mortar_depth),
               (P.width, 0, 0), (P.width, 0, P.thickness - P.mortar_depth),
               (0, P.length, 0), (0, P.length, P.thickness - P.mortar_depth),
               (P.width, P.length, 0),
               (P.width, P.length, P.thickness - P.mortar_depth)],
        fs := [(0, 2, 3, 1), (2, 6, 7, 3), (1, 3, 7, 5), (6, 4, 5, 7),
               (0, 1, 5, 4), (0, 4, 6, 2)],
        ms := List.replicate 6 1,
        boxes := [{ x := 0, y := 0, z := 0, w := P.width, l := P.length,
                    t := P.thickness - P.mortar_depth, w0 := P.width,
                    l0 := P.length }],
        k := 0 } := by
  unfold tile_grout
  rw [add_cube_emit P GenState.empty 0 0 0 P.width P.length
    (P.thickness - P.mortar_depth) 1 hw hl]
  have hcw : clipW P 0 P.width = P.width := by
    unfold clipW
    rw [if_neg (by simp)]
  have hcl : clipL P 0 P.length = P.length := by
    unfold clipL
    rw [if_neg (by simp)]
  simp [GenState.empty, hcw, hcl]

/-- If the state extends the grout slab on empty buffers by tile geometry
with zero material ids, the slab is the first block of every buffer. -/
theorem grout_first_of_ext {P : FloorParams} {st : GenState}
    (hw : 0 < P.width) (hl : 0 < P.length)
    (hext : Ext (tile_grout P GenState.empty) st)
    (hmsz : MsZeroExt (tile_grout P GenState.empty) st) :
    st.vs.take 8 = [(0, 0, 0), (0, 0, P.thickness - P.mortar_depth),
      (P.width, 0, 0), (P.width, 0, P.thickness - P.mortar_depth),
      (0, P.length, 0), (0, P.length, P.thickness - P.mortar_depth),
      (P.width, P.length, 0),
      (P.width, P.length, P.thickness - P.mortar_depth)] ∧
    st.fs.take 6 = [(0, 2, 3, 1), (2, 6, 7, 3), (1, 3, 7, 5), (6, 4, 5, 7),
      (0, 1, 5, 4), (0, 4, 6, 2)] ∧
    st.ms.take 6 = List.replicate 6 1 ∧
    (∀ m ∈ st.ms.drop 6, m = 0) ∧
    st.boxes.take 1 =
      [{ x := 0, y := 0, z := 0, w := P.width, l := P.length,
         t := P.thickness - P.mortar_depth, w0 := P.width,
         l0 := P.length }] := by
  rw [tile_grout_empty P hw hl] at hext hmsz
  obtain ⟨hv, hf, _hm, hb⟩ := hext
  obtain ⟨l2, hms, hz⟩ := hmsz
  refine ⟨?_, ?_, ?_, ?_, ?_⟩
  · have := List.prefix_iff_eq_take.mp hv
    simpa using this.symm
  · have := List.prefix_iff_eq_take.mp hf
    simpa using this.symm
  · rw [hms]
    simp
  · intro m hm
    rw [hms] at hm
    simp only [List.drop_append_eq_append_drop, List.length_replicate] at hm
    rcases List.mem_append.mp hm with hm' | hm'
    · exact absurd hm' (by simp)
    · exact hz m (List.mem_of_mem_drop hm')
  · have := List.prefix_iff_eq_take.mp hb
    simpa using this.symm

/-! ## Clipping discipline of the shared primitive -/

/-- A box as recorded after passing through `add_cube` with clip enabled:
it ends inside the footprint on both axes, and its dimensions are the
requested ones unless shrunk exactly to the remaining footprint. -/
def ClippedBox (P : FloorParams) (b : Box) : Prop :=
  b.x + b.w ≤ P.width ∧ b.y + b.l ≤ P.length ∧
  (b.w = b.w0 ∨ b.x + b.w = P.width) ∧ (b.l = b.l0 ∨ b.y + b.l = P.length)

instance (P : FloorParams) (b : Box) : Decidable (ClippedBox P b) := by
  unfold ClippedBox
  infer_instance

theorem add_cube_boxes_clipped (P : FloorParams) (st : GenState)
    (x y z w l t : ℚ) (m : ℕ) (hc : ∀ b ∈ st.boxes, ClippedBox P b) :
    ∀ b ∈ (add_cube P st x y z w l t true m).boxes, ClippedBox P b := by
  unfold add_cube
  split
  · exact hc
  · next hno =>
    intro b hb
    rcases List.mem_append.mp hb with hb | hb
    · exact hc b hb
    · simp only [List.mem_singleton] at hb
      subst hb
      have hx : x < P.width := by
        by_contra hcon
        exact hno ⟨rfl, Or.inl (le_of_not_lt hcon)⟩
      have hy : y < P.length := by
        by_contra hcon
        exact hno ⟨rfl, Or.inr (le_of_not_lt hcon)⟩
      unfold ClippedBox
      refine ⟨?_, ?_, ?_, ?_⟩
      · dsimp only
        split
        · linarith
        · next hcond =>
          have hle : ¬ P.width < x + w := fun hlt => hcond ⟨trivial, hlt⟩
          linarith [le_of_not_lt hle]
      · dsimp only
        split
        · linarith
        · next hcond =>
          have hle : ¬ P.length < y + l := fun hlt => hcond ⟨trivial, hlt⟩
          linarith [le_of_not_lt hle]
      · dsimp only
        split
        · right
          ring
        · left
          rfl
      · dsimp only
        split
        · right
          ring
        · left
          rfl

theorem clipped_ite {P : FloorParams} {c : Prop} [Decidable c]
    {a b : GenState} (ha : ∀ x ∈ a.boxes, ClippedBox P x)
    (hb : ∀ x ∈ b.boxes, ClippedBox P x) :
    ∀ x ∈ (if c then a else b).boxes, ClippedBox P x := by
  split
  · exact ha
  · exact hb

theorem clipped_tile_large_small_x (P : FloorParams) (row : ℕ) (fuel : ℕ) :
    ∀ cur_x cur_y sb st st',
      tile_large_small_x P row fuel cur_x cur_y sb st = some st' →
        (∀ b ∈ st.boxes, ClippedBox P b) → ∀ b ∈ st'.boxes, ClippedBox P b := by
  induction fuel with
  | zero =>
    intro cur_x cur_y sb st st' h hc
    simp only [tile_large_small_x] at h
    split at h
    · exact absurd h (by simp)
    · exact Option.some.inj h ▸ hc
  | succ n ih =>
    intro cur_x cur_y sb st st' h hc
    simp only [tile_large_small_x] at h
    split at h
    · split at h
      · split at h
        · exact ih _ _ _ _ _ h (add_cube_boxes_clipped P _ _ _ _ _ _ _ _
            (clipped_ite (add_cube_boxes_clipped P _ _ _ _ _ _ _ _ hc)
              (add_cube_boxes_clipped P _ _ _ _ _ _ _ _ hc)))
        · exact ih _ _ _ _ _ h (add_cube_boxes_clipped P _ _ _ _ _ _ _ _
            (clipped_ite (add_cube_boxes_clipped P _ _ _ _ _ _ _ _ hc)
              (add_cube_boxes_clipped P _ _ _ _ _ _ _ _ hc)))
      · split at h
        · exact ih _ _ _ _ _ h (add_cube_boxes_clipped P _ _ _ _ _ _ _ _
            (add_cube_boxes_clipped P _ _ _ _ _ _ _ _
              (add_cube_boxes_clipped P _ _ _ _ _ _ _ _ hc)))
        · exact ih _ _ _ _ _ h (add_cube_boxes_clipped P _ _ _ _ _ _ _ _
            (add_cube_boxes_clipped P _ _ _ _ _ _ _ _ hc))
    · exact Option.some.inj h ▸ hc

theorem clipped_tile_large_small_y (P : FloorParams) (F : ℕ) (fuel : ℕ) :
    ∀ cur_y pre_y row st st',
      tile_large_small_y P F fuel cur_y pre_y row st = some st' →
        (∀ b ∈ st.boxes, ClippedBox P b) → ∀ b ∈ st'.boxes, ClippedBox P b := by
  induction fuel with
  | zero =>
    intro cur_y pre_y row st st' h hc
    simp only [tile_large_small_y] at h
    split at h
    · exact absurd h (by simp)
    · exact Option.some.inj h ▸ hc
  | succ n ih =>
    intro cur_y pre_y row st st' h hc
    simp only [tile_large_small_y] at h
    split at h
    · rcases hm : tile_large_small_x P row F _ cur_y true st with _ | st1
      · rw [hm] at h
        exact absurd h (by simp)
      · rw [hm] at h
        exact ih _ _ _ _ _ h (clipped_tile_large_small_x P row F _ _ _ _ _ hm hc)
    · exact Option.some.inj h ▸ hc

/-! ## Footprint containment -/

/-- The validated parameter ranges of the spec (dimensions positive,
spacings non-negative, percentages within their sliders' bounds). -/
structure ValidParams (P : FloorParams) : Prop where
  width_pos : 0 < P.width
  length_pos : 0 < P.length
  spacing_nonneg : 0 ≤ P.spacing
  board_width_pos : 0 < P.board_width
  board_length_pos : 0 < P.board_length
  width_spacing_nonneg : 0 ≤ P.width_spacing
  length_spacing_nonneg : 0 ≤ P.length_spacing
  width_variance_nonneg : 0 ≤ P.width_variance
  width_variance_le : P.width_variance ≤ 100
  length_variance_nonneg : 0 ≤ P.length_variance
  length_variance_le : P.length_variance ≤ 100
  tile_width_pos : 0 < P.tile_width
  tile_length_pos : 0 < P.tile_length
  offset_pos : 0 < P.offset
  offset_le : P.offset ≤ 100
  offset_variance_nonneg : 0 ≤ P.offset_variance
  offset_variance_le : P.offset_variance ≤ 100

/-- The random stream yields unit samples, as Python's `random()` does. -/
def RngOk (rng : ℕ → ℚ) : Prop := ∀ n, 0 ≤ rng n ∧ rng n ≤ 1

/-- A dimension sampled with the `0.99`-guarded variance formula stays
strictly positive for any unit sample. -/
theorem uniform_variance_pos (n p r : ℚ) (hn : 0 < n) (hp0 : 0 ≤ p)
    (hp1 : p ≤ 100) (hr0 : 0 ≤ r) :
    0 < uniform (n - n * (p / 100) * (99 / 100))
      (n + n * (p / 100) * (99 / 100)) r := by
  unfold uniform
  nlinarith [mul_nonneg hn.le (by linarith : (0:ℚ) ≤ 100 - p),
    mul_nonneg (mul_nonneg hn.le hp0) hr0]

/-- The random tile-offset sample stays strictly positive for any unit
sample (the `0.0049` factor keeps the spread below half the length). -/
theorem uniform_offset_pos (tl ov r : ℚ) (htl : 0 < tl) (h0 : 0 ≤ ov)
    (h1 : ov ≤ 100) (hr0 : 0 ≤ r) :
    0 < uniform (tl / 2 - tl * (49 / 10000) * ov)
      (tl / 2 + tl * (49 / 10000) * ov) r := by
  unfold uniform
  nlinarith [mul_nonneg htl.le (by linarith : (0:ℚ) ≤ 100 - ov),
    mul_nonneg (mul_nonneg htl.le h0) hr0]

/-- A box's footprint extent lies inside `[0, W] × [0, L]`. -/
def Contained (P : FloorParams) (b : Box) : Prop :=
  0 ≤ b.x ∧ b.x + b.w ≤ P.width ∧ 0 ≤ b.w ∧
  0 ≤ b.y ∧ b.y + b.l ≤ P.length ∧ 0 ≤ b.l

instance (P : FloorParams) (b : Box) : Decidable (Contained P b) := by
  unfold Contained
  infer_instance

theorem add_cube_boxes_contained (P : FloorParams) (st : GenState)
    (x y z w l t : ℚ) (m : ℕ) (hx : 0 ≤ x) (hy : 0 ≤ y) (hw : 0 ≤ w)
    (hl : 0 ≤ l) (hc : ∀ b ∈ st.boxes, Contained P b) :
    ∀ b ∈ (add_cube P st x y z w l t true m).boxes, Contained P b := by
  unfold add_cube
  split
  · exact hc
  · next hno =>
    intro b hb
    rcases List.mem_append.mp hb with hb | hb
    · exact hc b hb
    · simp only [List.mem_singleton] at hb
      subst hb
      have hxw : x < P.width := by
        by_contra hcon
        exact hno ⟨rfl, Or.inl (le_of_not_lt hcon)⟩
      have hyl : y < P.length := by
        by_contra hcon
        exact hno ⟨rfl, Or.inr (le_of_not_lt hcon)⟩
      unfold Contained
      refine ⟨hx, ?_, ?_, hy, ?_, ?_⟩
      · dsimp only
        split
        · linarith
        · next hcond =>
          have hle : ¬ P.width < x + w := fun hlt => hcond ⟨trivial, hlt⟩
          linarith [le_of_not_lt hle]
      · dsimp only
        split
        · linarith
        · exact hw
      · dsimp only
        split
        · linarith
        · next hcond =>
          have hle : ¬ P.length < y + l := fun hlt => hcond ⟨trivial, hlt⟩
          linarith [le_of_not_lt hle]
      · dsimp only
        split
        · linarith
        · exact hl

theorem vary_dim_pos (rng : ℕ → ℚ) (hr : RngOk rng) (n p : ℚ) (k : ℕ)
    (hn : 0 < n) (hp0 : 0 ≤ p) (hp1 : p ≤ 100) : 0 < vary_dim rng n p k :=
  uniform_variance_pos n p (rng k) hn hp0 hp1 (hr k).1

/-- The (possibly varied, possibly clipped) row length of `wood_regular`
is non-negative while the row sweep is running. -/
theorem wr_bl2_nonneg (P : FloorParams) (rng : ℕ → ℚ) (hP : ValidParams P)
    (hr : RngOk rng) (cur_y : ℚ) (counter K : ℕ) (hguard : cur_y < P.length) :
    0 ≤ if (P.max_boards ≤ counter ∧ P.vary_length = true) ∨
          P.length < cur_y +
            (if P.vary_length = true then
              vary_dim rng P.board_length P.length_variance K
            else P.board_length) then
        P.length - cur_y
      else
        if P.vary_length = true then
          vary_dim rng P.board_length P.length_variance K
        else P.board_length := by
  split_ifs <;>
    first
      | linarith
      | exact le_of_lt (vary_dim_pos rng hr _ _ _ hP.board_length_pos
          hP.length_variance_nonneg hP.length_variance_le)
      | exact hP.board_length_pos.le

/-- The (possibly varied, possibly clipped) column width of
`wood_regular` is non-negative while the column sweep is running. -/
theorem wr_bw2_nonneg (P : FloorParams) (rng : ℕ → ℚ) (hP : ValidParams P)
    (hr : RngOk rng) (cur_x : ℚ) (K : ℕ) (hguard : cur_x < P.width) :
    0 ≤ if P.width <
          (if P.vary_width = true then
            vary_dim rng P.board_width P.width_variance K
          else P.board_width) + cur_x then
        P.width - cur_x
      else
        if P.vary_width = true then
          vary_dim rng P.board_width P.width_variance K
        else P.board_width := by
  split_ifs <;>
    first
      | linarith
      | exact le_of_lt (vary_dim_pos rng hr _ _ _ hP.board_width_pos
          hP.width_variance_nonneg hP.width_variance_le)
      | exact hP.board_width_pos.le

/-- The effective tile width chosen by `tile_regular` is non-negative
while the column sweep is running. -/
theorem tr_tw2_nonneg (P : FloorParams) (rng : ℕ → ℚ) (hP : ValidParams P)
    (hr : RngOk rng) (cur_x : ℚ) (off : Bool) (K : ℕ)
    (hguard : cur_x < P.width) :
    0 ≤ if cur_x < P.width ∧ P.width < cur_x + P.tile_width then
        P.width - cur_x
      else if cur_x = 0 ∧ off = true ∧ P.offset_tiles = true ∧
          P.random_offset = false then
        P.tile_width * (1 / (100 / P.offset))
      else if cur_x = 0 ∧ P.offset_tiles = true ∧ P.random_offset = true then
        uniform
          (P.tile_length / 2 - P.tile_length * (49 / 10000) * P.offset_variance)
          (P.tile_length / 2 + P.tile_length * (49 / 10000) * P.offset_variance)
          (rng K)
      else P.tile_width := by
  split_ifs <;>
    first
      | linarith
      | exact mul_nonneg hP.tile_width_pos.le (le_of_lt (one_div_pos.mpr
          (div_pos (by norm_num) hP.offset_pos)))
      | exact le_of_lt (uniform_offset_pos P.tile_length P.offset_variance
          (rng K) hP.tile_length_pos hP.offset_variance_nonneg
          hP.offset_variance_le (hr K).1)
      | exact hP.tile_width_pos.le

theorem contained_wood_regular_y (P : FloorParams) (rng : ℕ → ℚ)
    (hP : ValidParams P) (hr : RngOk rng) (fuel : ℕ) :
    ∀ cur_x cur_y (counter : ℕ) bw2 st st', 0 ≤ cur_x → 0 ≤ cur_y → 0 ≤ bw2 →
      wood_regular_y P rng fuel cur_x cur_y counter bw2 st = some st' →
      (∀ b ∈ st.boxes, Contained P b) → ∀ b ∈ st'.boxes, Contained P b := by
  induction fuel with
  | zero =>
    intro cur_x cur_y counter bw2 st st' hx hy hb h hc
    simp only [wood_regular_y] at h
    split at h
    · exact absurd h (by simp)
    · exact Option.some.inj h ▸ hc
  | succ n ih =>
    intro cur_x cur_y counter bw2 st st' hx hy hb h hc
    simp only [wood_regular_y] at h
    split at h
    case isTrue hguard =>
      have hbl2 := wr_bl2_nonneg P rng hP hr cur_y counter
        (if P.vary_thickness = true then st.k + 1 else st.k) hguard
      exact ih _ _ _ _ _ _ hx (by linarith [hP.length_spacing_nonneg]) hb h
        (add_cube_boxes_contained P _ _ _ _ _ _ _ _ hx hy hb hbl2 hc)
    case isFalse =>
      exact Option.some.inj h ▸ hc

theorem contained_wood_regular_x (P : FloorParams) (rng : ℕ → ℚ)
    (hP : ValidParams P) (hr : RngOk rng) (F : ℕ) (fuel : ℕ) :
    ∀ cur_x st st', 0 ≤ cur_x →
      wood_regular_x P rng F fuel cur_x st = some st' →
      (∀ b ∈ st.boxes, Contained P b) → ∀ b ∈ st'.boxes, Contained P b := by
  induction fuel with
  | zero =>
    intro cur_x st st' hx h hc
    simp only [wood_regular_x] at h
    split at h
    · exact absurd h (by simp)
    · exact Option.some.inj h ▸ hc
  | succ n ih =>
    intro cur_x st st' hx h hc
    simp only [wood_regular_x] at h
    split at h
    case isTrue hguard =>
      have hbw2 := wr_bw2_nonneg P rng hP hr cur_x st.k hguard
      rcases hm : wood_regular_y P rng F cur_x 0 1 _ _ with _ | st2
      · rw [hm] at h
        exact absurd h (by simp)
      · rw [hm] at h
        exact ih _ _ _ (by linarith [hP.width_spacing_nonneg]) h
          (contained_wood_regular_y P rng hP hr F _ _ _ _ _ _ hx le_rfl hbw2
            hm hc)
    case isFalse =>
      exact Option.some.inj h ▸ hc

theorem contained_tile_regular_x (P : FloorParams) (rng : ℕ → ℚ)
    (hP : ValidParams P) (hr : RngOk rng) (fuel : ℕ) :
    ∀ cur_x cur_y tl2 (off : Bool) st st', 0 ≤ cur_x → 0 ≤ cur_y → 0 ≤ tl2 →
      tile_regular_x P rng fuel cur_x cur_y tl2 off st = some st' →
      (∀ b ∈ st.boxes, Contained P b) → ∀ b ∈ st'.boxes, Contained P b := by
  induction fuel with
  | zero =>
    intro cur_x cur_y tl2 off st st' hx hy ht h hc
    simp only [tile_regular_x] at h
    split at h
    · exact absurd h (by simp)
    · exact Option.some.inj h ▸ hc
  | succ n ih =>
    intro cur_x cur_y tl2 off st st' hx hy ht h hc
    simp only [tile_regular_x] at h
    split at h
    case isTrue hguard =>
      have htw2 := tr_tw2_nonneg P rng hP hr cur_x off st.k hguard
      exact ih _ _ _ _ _ _ (by linarith [hP.spacing_nonneg]) hy ht h
        (add_cube_boxes_contained P _ _ _ _ _ _ _ _ hx hy htw2 ht hc)
    case isFalse =>
      exact Option.some.inj h ▸ hc

theorem contained_tile_regular_y (P : FloorParams) (rng : ℕ → ℚ)
    (hP : ValidParams P) (hr : RngOk rng) (F : ℕ) (fuel : ℕ) :
    ∀ cur_y (off : Bool) st st', 0 ≤ cur_y →
      tile_regular_y P rng F fuel cur_y off st = some st' →
      (∀ b ∈ st.boxes, Contained P b) → ∀ b ∈ st'.boxes, Contained P b := by
  induction fuel with
  | zero =>
    intro cur_y off st st' hy h hc
    simp only [tile_regular_y] at h
    split at h
    · exact absurd h (by simp)
    · exact Option.some.inj h ▸ hc
  | succ n ih =>
    intro cur_y off st st' hy h hc
    simp only [tile_regular_y] at h
    split at h
    case isTrue hguard =>
      have htl2 : 0 ≤ if cur_y < P.length ∧ P.length < cur_y + P.tile_length
          then P.length - cur_y else P.tile_length := by
        split_ifs with h1
        · linarith [h1.1]
        · exact hP.tile_length_pos.le
      rcases hm : tile_regular_x P rng F 0 cur_y _ off st with _ | st1
      · rw [hm] at h
        exact absurd h (by simp)
      · rw [hm] at h
        exact ih _ _ _ _ (by linarith [hP.spacing_nonneg]) h
          (contained_tile_regular_x P rng hP hr F _ _ _ _ _ _ le_rfl hy htl2
            hm hc)
    case isFalse =>
      exact Option.some.inj h ▸ hc

/-! ## Coverage of the no-variance, no-spacing wood regular tiling -/


/-- A sweep whose guard already fails returns its state unchanged, for
any fuel. -/
theorem wood_regular_y_done (P : FloorParams) (rng : ℕ → ℚ) (fuel : ℕ)
    (cur_x cur_y : ℚ) (counter : ℕ) (bw2 : ℚ) (st : GenState)
    (hguard : ¬ cur_y < P.length) :
    wood_regular_y P rng fuel cur_x cur_y counter bw2 st = some st := by
  cases fuel <;> simp only [wood_regular_y] <;> rw [if_neg hguard]

theorem wr_y_coverage (P : FloorParams) (rng : ℕ → ℚ)
    (hvt : P.vary_thickness = false) (hvl : P.vary_length = false)
    (hls : P.length_spacing = 0) (hbl : 0 < P.board_length) (fuel : ℕ) :
    ∀ (cur_x cur_y : ℚ) (counter : ℕ) (bw2 : ℚ) (st st' : GenState),
      cur_y < P.length → cur_x < P.width → cur_x + bw2 ≤ P.width →
      wood_regular_y P rng fuel cur_x cur_y counter bw2 st = some st' →
      ∃ new, st'.boxes = st.boxes ++ new ∧
        (new.map fun b => b.w * b.l).sum = bw2 * (P.length - cur_y) ∧
        (∀ b ∈ new, b.x = cur_x ∧ b.w = bw2 ∧ cur_y ≤ b.y ∧
          b.y + b.l ≤ P.length ∧ 0 < b.l) ∧
        new.Pairwise (fun b1 b2 => b1.y + b1.l ≤ b2.y) := by
  induction fuel with
  | zero =>
    intro cur_x cur_y counter bw2 st st' hgy hgx hxw h
    simp only [wood_regular_y] at h
    rw [if_pos hgy] at h
    exact absurd h (by simp)
  | succ n ih =>
    intro cur_x cur_y counter bw2 st st' hgy hgx hxw h
    simp only [wood_regular_y, hvt, hvl, hls, Bool.false_eq_true, if_false,
      and_false, false_or, add_zero] at h
    rw [if_pos hgy] at h
    rw [show ({
        vs := st.vs, fs := st.fs, ms := st.ms, boxes := st.boxes,
        k := st.k } : GenState) = st from rfl] at h
    have hcw : clipW P cur_x bw2 = bw2 := by
      unfold clipW
      rw [if_neg (not_lt.mpr hxw)]
    by_cases hclip : P.length < cur_y + P.board_length
    · rw [if_pos hclip] at h
      have hcl : clipL P cur_y (P.length - cur_y) = P.length - cur_y := by
        unfold clipL
        rw [if_neg (by linarith)]
      rw [add_cube_emit P st cur_x cur_y 0 bw2 (P.length - cur_y) P.thickness 0
        hgx hgy, hcw, hcl] at h
      rw [show cur_y + (P.length - cur_y) = P.length from by ring] at h
      rw [wood_regular_y_done P rng n cur_x P.length (counter + 1) bw2 _
        (lt_irrefl _)] at h
      have heq := Option.some.inj h
      refine ⟨[{
          x := cur_x, y := cur_y, z := 0, w := bw2,
          l := P.length - cur_y, t := P.thickness, w0 := bw2,
          l0 := P.length - cur_y }], ?_, ?_, ?_, ?_⟩
      · rw [← heq]
      · simp
      · rintro b hb
        simp only [List.mem_singleton] at hb
        subst hb
        refine ⟨rfl, rfl, le_rfl, by dsimp only; linarith, by dsimp only; linarith⟩
      · simp
    · rw [if_neg hclip] at h
      have hble : cur_y + P.board_length ≤ P.length := not_lt.mp hclip
      have hcl : clipL P cur_y P.board_length = P.board_length := by
        unfold clipL
        rw [if_neg hclip]
      rw [add_cube_emit P st cur_x cur_y 0 bw2 P.board_length P.thickness 0
        hgx hgy, hcw, hcl] at h
      rcases eq_or_lt_of_le hble with heqL | hlt
      · rw [heqL] at h
        rw [wood_regular_y_done P rng n cur_x P.length (counter + 1) bw2 _
          (lt_irrefl _)] at h
        have heq := Option.some.inj h
        refine ⟨[{
            x := cur_x, y := cur_y, z := 0, w := bw2,
            l := P.board_length, t := P.thickness, w0 := bw2,
            l0 := P.board_length }], ?_, ?_, ?_, ?_⟩
        · rw [← heq]
        · simp only [List.map_cons, List.map_nil, List.sum_cons, List.sum_nil,
            add_zero]
          rw [show P.length - cur_y = P.board_length from by linarith]
        · rintro b hb
          simp only [List.mem_singleton] at hb
          subst hb
          exact ⟨rfl, rfl, le_rfl, by dsimp only; linarith, by dsimp only; linarith⟩
        · simp
      · obtain ⟨new', hb', hsum', hall', hpw'⟩ :=
          ih cur_x (cur_y + P.board_length) (counter + 1) bw2 _ st' hlt hgx hxw h
        refine ⟨{
            x := cur_x, y := cur_y, z := 0, w := bw2,
            l := P.board_length, t := P.thickness, w0 := bw2,
            l0 := P.board_length } :: new', ?_, ?_, ?_, ?_⟩
        · rw [hb']
          simp
        · simp only [List.map_cons, List.sum_cons, hsum']
          ring
        · intro b hb
          rcases List.mem_cons.mp hb with rfl | hb
          · exact ⟨rfl, rfl, le_rfl, by dsimp only; linarith,
              by dsimp only; linarith⟩
          · obtain ⟨h1, h2, h3, h4, h5⟩ := hall' b hb
            exact ⟨h1, h2, by linarith, h4, h5⟩
        · rw [List.pairwise_cons]
          refine ⟨fun b hb => ?_, hpw'⟩
          obtain ⟨h1, h2, h3, h4, h5⟩ := hall' b hb
          dsimp only
          linarith

theorem wood_regular_x_done (P : FloorParams) (rng : ℕ → ℚ) (F fuel : ℕ)
    (cur_x : ℚ) (st : GenState) (hguard : ¬ cur_x < P.width) :
    wood_regular_x P rng F fuel cur_x st = some st := by
  cases fuel <;> simp only [wood_regular_x] <;> rw [if_neg hguard]

/-- Boxes whose footprint interiors cannot overlap: one is fully to the
left, right, below or above the other. -/
def FootDisjoint (b1 b2 : Box) : Prop :=
  b1.x + b1.w ≤ b2.x ∨ b2.x + b2.w ≤ b1.x ∨
  b1.y + b1.l ≤ b2.y ∨ b2.y + b2.l ≤ b1.y

theorem wr_x_coverage (P : FloorParams) (rng : ℕ → ℚ)
    (hvt : P.vary_thickness = false) (hvw : P.vary_width = false)
    (hvl : P.vary_length = false) (hws : P.width_spacing = 0)
    (hls : P.length_spacing = 0) (hbw : 0 < P.board_width)
    (hbl : 0 < P.board_length) (hL : 0 < P.length) (F : ℕ) (fuel : ℕ) :
    ∀ (cur_x : ℚ) (st st' : GenState), cur_x < P.width →
      wood_regular_x P rng F fuel cur_x st = some st' →
      ∃ new, st'.boxes = st.boxes ++ new ∧
        (new.map fun b => b.w * b.l).sum = (P.width - cur_x) * P.length ∧
        (∀ b ∈ new, cur_x ≤ b.x) ∧
        new.Pairwise (fun b1 b2 => b1.x + b1.w ≤ b2.x ∨ b1.y + b1.l ≤ b2.y) := by
  induction fuel with
  | zero =>
    intro cur_x st st' hgx h
    simp only [wood_regular_x] at h
    rw [if_pos hgx] at h
    exact absurd h (by simp)
  | succ n ih =>
    intro cur_x st st' hgx h
    simp only [wood_regular_x, hvw, Bool.false_eq_true, if_false] at h
    rw [if_pos hgx] at h
    rw [show ({
        vs := st.vs, fs := st.fs, ms := st.ms, boxes := st.boxes,
        k := st.k } : GenState) = st from rfl] at h
    by_cases hclipx : P.width < P.board_width + cur_x
    · rw [if_pos hclipx] at h
      rcases hm : wood_regular_y P rng F cur_x 0 1 (P.width - cur_x) st
        with _ | st2
      · rw [hm] at h
        exact absurd h (by simp)
      · rw [hm] at h
        dsimp only at h
        obtain ⟨new1, hb1, hsum1, hall1, hpw1⟩ :=
          wr_y_coverage P rng hvt hvl hls hbl F cur_x 0 1 (P.width - cur_x)
            st st2 hL hgx (by linarith) hm
        rw [show cur_x + (P.width - cur_x) + P.width_spacing = P.width from by
          rw [hws]; ring] at h
        rw [wood_regular_x_done P rng F n P.width st2 (lt_irrefl _)] at h
        have heq := Option.some.inj h
        refine ⟨new1, by rw [← heq, hb1], by rw [hsum1]; ring, ?_, ?_⟩
        · intro b hb
          exact (hall1 b hb).1 ▸ le_rfl
        · exact hpw1.imp fun hy => Or.inr hy
    · rw [if_neg hclipx] at h
      have hxw : cur_x + P.board_width ≤ P.width := by linarith [not_lt.mp hclipx]
      rcases hm : wood_regular_y P rng F cur_x 0 1 P.board_width st with _ | st2
      · rw [hm] at h
        exact absurd h (by simp)
      · rw [hm] at h
        dsimp only at h
        obtain ⟨new1, hb1, hsum1, hall1, hpw1⟩ :=
          wr_y_coverage P rng hvt hvl hls hbl F cur_x 0 1 P.board_width
            st st2 hL hgx hxw hm
        rw [show cur_x + P.board_width + P.width_spacing =
          cur_x + P.board_width from by rw [hws]; ring] at h
        rcases eq_or_lt_of_le hxw with heqW | hltW
        · rw [heqW] at h
          rw [wood_regular_x_done P rng F n P.width st2 (lt_irrefl _)] at h
          have heq := Option.some.inj h
          refine ⟨new1, by rw [← heq, hb1], ?_, ?_, ?_⟩
          · rw [hsum1, show P.width - cur_x = P.board_width from by linarith]
            ring
          · intro b hb
            exact (hall1 b hb).1 ▸ le_rfl
          · exact hpw1.imp fun hy => Or.inr hy
        · obtain ⟨new2, hb2, hsum2, hall2, hpw2⟩ := ih (cur_x + P.board_width)
            st2 st' hltW h
          refine ⟨new1 ++ new2, ?_, ?_, ?_, ?_⟩
          · rw [hb2, hb1, List.append_assoc]
          · rw [List.map_append, List.sum_append, hsum1, hsum2]
            ring
          · intro b hb
            rcases List.mem_append.mp hb with hb | hb
            · exact (hall1 b hb).1 ▸ le_rfl
            · linarith [hall2 b hb]
          · rw [List.pairwise_append]
            refine ⟨hpw1.imp fun hy => Or.inr hy, hpw2, ?_⟩
            intro a ha b hb
            obtain ⟨hax, haw, _, _, _⟩ := hall1 a ha
            have hbx := hall2 b hb
            left
            rw [hax, haw]
            exact hbx

/-! ## Independence from the random source

With the three `vary_*` flags off, `wood_regular` never consults the
random stream.  `tile_regular` additionally consults it in its random
row-offset branch, which is guarded by `offset_tiles ∧ random_offset`,
not by any `vary_*` flag. -/

theorem rng_indep_wood_regular_y (P : FloorParams) (r1 r2 : ℕ → ℚ)
    (hvt : P.vary_thickness = false) (hvl : P.vary_length = false) (fuel : ℕ) :
    ∀ cur_x cur_y counter bw2 st,
      wood_regular_y P r1 fuel cur_x cur_y counter bw2 st =
        wood_regular_y P r2 fuel cur_x cur_y counter bw2 st := by
  induction fuel with
  | zero =>
    intro cur_x cur_y counter bw2 st
    rfl
  | succ n ih =>
    intro cur_x cur_y counter bw2 st
    simp only [wood_regular_y, hvt, hvl, Bool.false_eq_true, if_false,
      and_false, false_or]
    split
    · exact ih _ _ _ _ _
    · rfl

theorem rng_indep_wood_regular_x (P : FloorParams) (r1 r2 : ℕ → ℚ)
    (hvt : P.vary_thickness = false) (hvw : P.vary_width = false)
    (hvl : P.vary_length = false) (F : ℕ) (fuel : ℕ) :
    ∀ cur_x st,
      wood_regular_x P r1 F fuel cur_x st =
        wood_regular_x P r2 F fuel cur_x st := by
  induction fuel with
  | zero =>
    intro cur_x st
    rfl
  | succ n ih =>
    intro cur_x st
    simp only [wood_regular_x, hvw, Bool.false_eq_true, if_false]
    by_cases hg : cur_x < P.width
    · rw [if_pos hg, if_pos hg]
      rw [rng_indep_wood_regular_y P r1 r2 hvt hvl F]
      cases wood_regular_y P r2 F cur_x 0 1 _ _ with
      | none => rfl
      | some st2 => exact ih _ _
    · rw [if_neg hg, if_neg hg]

theorem rng_indep_tile_regular_x (P : FloorParams) (r1 r2 : ℕ → ℚ)
    (hoff : P.offset_tiles = false ∨ P.random_offset = false) (fuel : ℕ) :
    ∀ cur_x cur_y tl2 off st,
      tile_regular_x P r1 fuel cur_x cur_y tl2 off st =
        tile_regular_x P r2 fuel cur_x cur_y tl2 off st := by
  induction fuel with
  | zero =>
    intro cur_x cur_y tl2 off st
    rfl
  | succ n ih =>
    intro cur_x cur_y tl2 off st
    rcases hoff with h | h <;>
      simp only [tile_regular_x, h, Bool.false_eq_true, and_false, false_and,
        if_false] <;>
      split
    · exact ih _ _ _ _ _
    · rfl
    · exact ih _ _ _ _ _
    · rfl

theorem rng_indep_tile_regular_y (P : FloorParams) (r1 r2 : ℕ → ℚ)
    (hoff : P.offset_tiles = false ∨ P.random_offset = false) (F : ℕ)
    (fuel : ℕ) :
    ∀ cur_y off st,
      tile_regular_y P r1 F fuel cur_y off st =
        tile_regular_y P r2 F fuel cur_y off st := by
  induction fuel with
  | zero =>
    intro cur_y off st
    rfl
  | succ n ih =>
    intro cur_y off st
    simp only [tile_regular_y]
    by_cases hg : cur_y < P.length
    · rw [if_pos hg, if_pos hg]
      rw [rng_indep_tile_regular_x P r1 r2 hoff F]
      cases tile_regular_x P r2 F 0 cur_y _ off st with
      | none => rfl
      | some st1 => exact ih _ _ _
    · rw [if_neg hg, if_neg hg]

/-! ## Example parameter sets -/

/-- The worked example of the spec: a `4 × 2` footprint of `1 × 1` wood
boards, zero spacing, no variance.  Also the base record for the other
concrete parameter sets below. -/
def exampleParams : FloorParams := {
  floor_material := .wood, wood_styles := .regular, tile_styles := .regular,
  width := 4, length := 2, spacing := 0, thickness := 1,
  vary_thickness := false, thickness_variance := 50,
  board_width := 1, vary_width := false, width_variance := 50, width_spacing := 0,
  board_length := 1, vary_length := false, length_variance := 50,
  max_boards := 2, length_spacing := 0, boards_in_group := 4,
  tile_width := 1, tile_length := 1, mortar_depth := 0,
  offset_tiles := false, random_offset := false, offset := 50,
  offset_variance := 50 }

/-! ## Claim theorems -/

/-- **C1.** For every call to `add_cube` with clip enabled: if the origin
satisfies `x ≥ W` or `y ≥ L` it appends nothing to any buffer; otherwise
it appends exactly 8 vertices spanning `[x, x+w'] × [y, y+l'] × [z, z+t]`,
6 quad faces, and the material id 6 times, where `w' = W - x` when
`x + w > W` else `w`, `l' = L - y` when `y + l > L` else `l` (that is,
`clipW` / `clipL`), and the thickness `t` is never reduced. -/
theorem add_cube_clip_spec (P : FloorParams) (st : GenState)
    (x y z w l t : ℚ) (m : ℕ) :
    (P.width ≤ x ∨ P.length ≤ y → add_cube P st x y z w l t true m = st) ∧
    (x < P.width → y < P.length →
      (add_cube P st x y z w l t true m).vs =
        st.vs ++ [(x, y, z), (x, y, z + t),
          (x + clipW P x w, y, z), (x + clipW P x w, y, z + t),
          (x, y + clipL P y l, z), (x, y + clipL P y l, z + t),
          (x + clipW P x w, y + clipL P y l, z),
          (x + clipW P x w, y + clipL P y l, z + t)] ∧
      (add_cube P st x y z w l t true m).fs =
        st.fs ++ [(st.vs.length, st.vs.length + 2, st.vs.length + 3, st.vs.length + 1),
          (st.vs.length + 2, st.vs.length + 6, st.vs.length + 7, st.vs.length + 3),
          (st.vs.length + 1, st.vs.length + 3, st.vs.length + 7, st.vs.length + 5),
          (st.vs.length + 6, st.vs.length + 4, st.vs.length + 5, st.vs.length + 7),
          (st.vs.length, st.vs.length + 1, st.vs.length + 5, st.vs.length + 4),
          (st.vs.length, st.vs.length + 4, st.vs.length + 6, st.vs.length + 2)] ∧
      (add_cube P st x y z w l t true m).ms = st.ms ++ List.replicate 6 m ∧
      (add_cube P st x y z w l t true m).boxes = st.boxes ++
        [{ x := x, y := y, z := z, w := clipW P x w, l := clipL P y l,
           t := t, w0 := w, l0 := l }]) := by
  constructor
  · intro h
    exact add_cube_skip P st x y z w l t m h
  · intro hx hy
    rw [add_cube_emit P st x y z w l t m hx hy]
    exact ⟨rfl, rfl, rfl, rfl⟩

/-- Witness for C1: on the example parameters (`W = 4`, `L = 2`), a box
at `x = 5` is skipped, and a box at `x = 3` with `w = 2` appends its six
material ids. -/
theorem add_cube_clip_spec_witness :
    add_cube exampleParams GenState.empty 5 0 0 2 1 1 true 3 = GenState.empty ∧
    (add_cube exampleParams GenState.empty 3 0 0 2 1 1 true 3).ms =
      GenState.empty.ms ++ List.replicate 6 3 := by
  constructor
  · exact (add_cube_clip_spec exampleParams GenState.empty 5 0 0 2 1 1 3).1
      (Or.inl (by norm_num [exampleParams]))
  · exact ((add_cube_clip_spec exampleParams GenState.empty 3 0 0 2 1 1 3).2
      (by norm_num [exampleParams]) (by norm_num [exampleParams])).2.2.1

/-- **C2.** After every complete generation run (`update_data`, for every
material family and style): `len(material_ids) = len(faces)`; every index
inside every face quad is below `8 * (i / 6) + 8` — the vertex count at
the moment face `i` was appended (each emission appends its 8 vertices
and then 6 faces referencing only those) — and in particular below the
final vertex count; the run starts from empty buffers
(`update_data` dispatches from `GenState.empty`); and every layout
routine only appends to the buffers (`Ext`). -/
theorem update_data_buffer_invariants :
    (∀ P rng F st, update_data P rng F = some st →
      st.ms.length = st.fs.length ∧
      ∀ i, i < st.fs.length →
        InvFace (8 * (i / 6) + 8) (st.fs.getD i (0, 0, 0, 0)) ∧
        InvFace st.vs.length (st.fs.getD i (0, 0, 0, 0))) ∧
    (GenState.empty.vs = [] ∧ GenState.empty.fs = [] ∧
      GenState.empty.ms = []) ∧
    (∀ P rng F st₀ st₁, wood_regular P rng F st₀ = some st₁ → Ext st₀ st₁) ∧
    (∀ P F st₀ st₁, wood_parquet P F st₀ = some st₁ → Ext st₀ st₁) ∧
    (∀ P st₀, Ext st₀ (tile_grout P st₀)) ∧
    (∀ P rng F st₀ st₁, tile_regular P rng F st₀ = some st₁ → Ext st₀ st₁) ∧
    (∀ P F st₀ st₁, tile_large_small P F st₀ = some st₁ → Ext st₀ st₁) := by
  refine ⟨?_, ⟨rfl, rfl, rfl⟩, ext_wood_regular, ext_wood_parquet,
    fun P st₀ => ext_add_cube P st₀ _ _ _ _ _ _ _ _,
    ext_tile_regular, ext_tile_large_small⟩
  intro P rng F st h
  obtain ⟨hpar, ⟨k, hk6, hk8⟩, hidx⟩ := inv_update_data P rng F st h
  refine ⟨hpar, fun i hi => ⟨hidx i hi, invFace_mono ?_ _ (hidx i hi)⟩⟩
  omega

/-- Witness for C2: the invariant instantiated on the completed example
run. -/
theorem update_data_buffer_invariants_witness :
    ((update_data exampleParams (fun _ => 0) 16).getD GenState.empty).ms.length =
      ((update_data exampleParams (fun _ => 0) 16).getD GenState.empty).fs.length := by
  exact (update_data_buffer_invariants.1 exampleParams (fun _ => 0) 16
    ((update_data exampleParams (fun _ => 0) 16).getD GenState.empty)
    (by with_unfolding_all rfl)).1

/-- **C6.** With `W = 4`, `L = 2`, the wood regular style, unit board
width and length, zero spacing and no variance, generation emits exactly
8 boxes arranged as 4 columns by 2 rows, producing 64 vertices and 48
faces, every face having material id 0. -/
theorem wood_regular_example :
    (update_data exampleParams (fun _ => 0) 16).map
        (fun st => (st.vs.length, st.fs.length)) = some (64, 48) ∧
    (update_data exampleParams (fun _ => 0) 16).map GenState.ms =
      some (List.replicate 48 0) ∧
    (boxesOf (update_data exampleParams (fun _ => 0) 16)).map
        (fun b => (b.x, b.y, b.w, b.l)) =
      [(0, 0, 1, 1), (0, 1, 1, 1), (1, 0, 1, 1), (1, 1, 1, 1),
       (2, 0, 1, 1), (2, 1, 1, 1), (3, 0, 1, 1), (3, 1, 1, 1)] := by
  refine ⟨by with_unfolding_all rfl, by with_unfolding_all rfl,
    by with_unfolding_all rfl⟩

/-- The example parameters with a non-positive board length
(`board_length = -1`) and zero length spacing: the row stride
`bl2 + length_spacing` is negative, the degenerate-stride situation of
the spec.  Such a value is outside the UI slider range but nothing in
the generation code validates or rejects it. -/
def degenerateParams : FloorParams :=
  { exampleParams with board_length := -1 }

/-- With the degenerate row stride, the inner sweep of `wood_regular`
decreases `cur_y` forever: it exhausts any amount of fuel. -/
theorem wood_regular_y_degenerate_none (fuel : ℕ) :
    ∀ (cur_y : ℚ) (counter : ℕ) (st : GenState), cur_y ≤ 0 →
      wood_regular_y degenerateParams (fun _ => 0) fuel 0 cur_y counter 1 st =
        none := by
  induction fuel with
  | zero =>
    intro cur_y counter st hy
    simp only [wood_regular_y]
    rw [if_pos (show cur_y < degenerateParams.length by
      norm_num [degenerateParams, exampleParams]
      linarith)]
  | succ n ih =>
    intro cur_y counter st hy
    simp only [wood_regular_y]
    rw [if_pos (show cur_y < degenerateParams.length by
      norm_num [degenerateParams, exampleParams]
      linarith)]
    norm_num [degenerateParams, exampleParams]
    simp only [if_neg (show ¬ (3:ℚ) < cur_y from by linarith)]
    exact ih _ _ _ (by linarith)

/-- Tile-family variant of the example parameters (`4 × 2` footprint,
`1 × 1` tiles, zero spacing and mortar depth). -/
def tileParams : FloorParams :=
  { exampleParams with
    floor_material := .tile
    tile_styles := .regular }

/-- **C5.** For every parameter assignment with material family Tile,
regardless of the selected tile style, generation emits as its first
geometry exactly one slab spanning the full footprint
`[0, W] × [0, L]` at `z = 0` with thickness `thickness - mortar_depth`
and material id 1, occupying the first 6 entries of the faces and
material-id buffers before any tile geometry; every later face has
material id 0. -/
theorem tile_grout_first_slab (P : FloorParams) (rng : ℕ → ℚ) (F : ℕ)
    (st : GenState) (hfm : P.floor_material = FloorMaterial.tile)
    (hw : 0 < P.width) (hl : 0 < P.length)
    (h : update_data P rng F = some st) :
    st.vs.take 8 = [(0, 0, 0), (0, 0, P.thickness - P.mortar_depth),
      (P.width, 0, 0), (P.width, 0, P.thickness - P.mortar_depth),
      (0, P.length, 0), (0, P.length, P.thickness - P.mortar_depth),
      (P.width, P.length, 0),
      (P.width, P.length, P.thickness - P.mortar_depth)] ∧
    st.fs.take 6 = [(0, 2, 3, 1), (2, 6, 7, 3), (1, 3, 7, 5), (6, 4, 5, 7),
      (0, 1, 5, 4), (0, 4, 6, 2)] ∧
    st.ms.take 6 = List.replicate 6 1 ∧
    (∀ m ∈ st.ms.drop 6, m = 0) ∧
    st.boxes.take 1 =
      [{ x := 0, y := 0, z := 0, w := P.width, l := P.length,
         t := P.thickness - P.mortar_depth, w0 := P.width,
         l0 := P.length }] := by
  unfold update_data at h
  rw [hfm] at h
  rcases hTS : P.tile_styles with _ | _ | _ | _ <;> rw [hTS] at h
  · exact grout_first_of_ext hw hl
      (ext_tile_regular P rng F _ _ h) (msz_tile_regular_y P rng F F _ _ _ _ h)
  · exact grout_first_of_ext hw hl
      (ext_tile_large_small P F _ _ h) (msz_tile_large_small_y P F F _ _ _ _ _ h)
  · exact Option.some.inj h ▸ grout_first_of_ext hw hl (Ext.refl_ext _)
      (MsZeroExt.refl_msz _)
  · exact Option.some.inj h ▸ grout_first_of_ext hw hl (Ext.refl_ext _)
      (MsZeroExt.refl_msz _)

/-- Witness for C5: the regular tile style on the `4 × 2` example. -/
theorem tile_grout_first_slab_witness :
    ((update_data tileParams (fun _ => 0) 32).getD GenState.empty).ms.take 6 =
      List.replicate 6 1 ∧
    ∀ m ∈ ((update_data tileParams (fun _ => 0) 32).getD GenState.empty).ms.drop 6,
      m = 0 := by
  have h := tile_grout_first_slab tileParams (fun _ => 0) 32
    ((update_data tileParams (fun _ => 0) 32).getD GenState.empty) rfl
    (by norm_num [tileParams, exampleParams])
    (by norm_num [tileParams, exampleParams])
    (by with_unfolding_all rfl)
  exact ⟨h.2.2.1, h.2.2.2.1⟩

/-- Large+small-family variant of the example parameters. -/
def lsParams : FloorParams :=
  { exampleParams with
    floor_material := .tile
    tile_styles := .large_small }

/-- Counterexample to **C9** as stated: on a `4 × 2` footprint with
`1 × 1` tiles and zero spacing, the large+small style does emit boxes
whose width or length was shrunk before emission (`add_cube` is called
with its default `clip=True`, which trims tiles crossing the right and
top edges). -/
theorem tile_large_small_clip_counterexample :
    ¬ ∀ b ∈ boxesOf (update_data lsParams (fun _ => 0) 64),
        b.w = b.w0 ∧ b.l = b.l0 :=
  of_decide_eq_true (by with_unfolding_all rfl)

/-- **C9 (amended).** Boundary clipping IS applied to the large+small
pattern, by the shared `add_cube` primitive rather than by inline
pre-clipping: starting from a state whose boxes already respect the
footprint (e.g. after the grout slab), every box the style emits ends
inside `[0-ish, W] × [.., L]` on the clipped axes — `x + w ≤ W` and
`y + l ≤ L` — and its dimensions equal the requested ones unless shrunk
exactly to the remaining footprint `W - x` / `L - y`. -/
theorem tile_large_small_boxes_clipped (P : FloorParams) (F : ℕ)
    (st st' : GenState) (hc : ∀ b ∈ st.boxes, ClippedBox P b)
    (h : tile_large_small P F st = some st') :
    ∀ b ∈ st'.boxes, ClippedBox P b :=
  clipped_tile_large_small_y P F F 0 0 0 st st' h hc

/-- Witness for the amended C9: in the `4 × 2` large+small example run
the large tile requested at `x = 7/2` with width 1 was shrunk exactly to
the remaining footprint `1/2`, satisfying `ClippedBox`. -/
theorem tile_large_small_boxes_clipped_witness :
    ClippedBox lsParams
      { x := 7/2, y := 0, z := 0, w := 1/2, l := 1/2, t := 1,
        w0 := 1, l0 := 1/2 } :=
  tile_large_small_boxes_clipped lsParams 64 (tile_grout lsParams GenState.empty)
    ((tile_large_small lsParams 64
      (tile_grout lsParams GenState.empty)).getD GenState.empty)
    (of_decide_eq_true (by with_unfolding_all rfl))
    (by with_unfolding_all rfl)
    _ (of_decide_eq_true (by with_unfolding_all rfl))

/-- **C3.** For the wood regular and tile regular styles, for every
parameter assignment in the validated ranges and every unit random
stream, every emitted box's x-extent lies within `[0, W]` and its
y-extent within `[0, L]` (exactly — the embedding computes in `ℚ`). -/
theorem footprint_containment (P : FloorParams) (rng : ℕ → ℚ) (F : ℕ)
    (st : GenState) (hP : ValidParams P) (hr : RngOk rng)
    (hstyle : (P.floor_material = FloorMaterial.wood ∧
        P.wood_styles = WoodStyle.regular) ∨
      (P.floor_material = FloorMaterial.tile ∧
        P.tile_styles = TileStyle.regular))
    (h : update_data P rng F = some st) :
    ∀ b ∈ st.boxes, Contained P b := by
  unfold update_data at h
  rcases hstyle with ⟨hfm, hws⟩ | ⟨hfm, hts⟩
  · rw [hfm, hws] at h
    exact contained_wood_regular_x P rng hP hr F F 0 GenState.empty st le_rfl h
      (by simp [GenState.empty])
  · rw [hfm, hts] at h
    refine contained_tile_regular_y P rng hP hr F F 0 false _ st le_rfl h ?_
    intro b hb
    rw [tile_grout_empty P hP.width_pos hP.length_pos] at hb
    simp only [List.mem_singleton] at hb
    subst hb
    unfold Contained
    dsimp only
    exact ⟨le_rfl, by linarith [hP.width_pos], hP.width_pos.le,
      le_rfl, by linarith [hP.length_pos], hP.length_pos.le⟩

/-- Witness for C3: the first board of the wood-regular example run is
contained in the footprint. -/
theorem footprint_containment_witness :
    Contained exampleParams
      { x := 0, y := 0, z := 0, w := 1, l := 1, t := 1, w0 := 1, l0 := 1 } := by
  refine footprint_containment exampleParams (fun _ => 0) 16
    ((update_data exampleParams (fun _ => 0) 16).getD GenState.empty) ?_ ?_
    (Or.inl ⟨rfl, rfl⟩) (by with_unfolding_all rfl) _ ?_
  · constructor <;> norm_num [exampleParams]
  · intro n
    norm_num
  · exact of_decide_eq_true (by with_unfolding_all rfl)

/-- **C7.** The generation code contains no `DegenerateStride` (or any
other) error path: on a parameter set whose computed sweep stride is
non-positive (`board_length = -1`, `length_spacing = 0`), the
`wood_regular` row sweep decreases its cursor forever instead of
surfacing an error — the run exhausts every fuel bound, i.e. the loop
does not terminate.  This contradicts the spec, which requires the
degenerate stride to be detected and surfaced as an error. -/
theorem update_data_degenerate_none (F : ℕ) :
    update_data degenerateParams (fun _ => 0) F = none := by
  show wood_regular_x degenerateParams (fun _ => 0) F F 0 GenState.empty = none
  cases F with
  | zero =>
    simp only [wood_regular_x]
    rw [if_pos (show (0:ℚ) < degenerateParams.width by
      norm_num [degenerateParams, exampleParams])]
  | succ n =>
    simp only [wood_regular_x]
    rw [if_pos (show (0:ℚ) < degenerateParams.width by
      norm_num [degenerateParams, exampleParams])]
    rw [if_neg (show ¬ (degenerateParams.vary_width = true) by
      norm_num [degenerateParams, exampleParams])]
    rw [if_neg (show ¬ degenerateParams.width < degenerateParams.board_width + 0 by
      norm_num [degenerateParams, exampleParams])]
    rw [show degenerateParams.board_width = (1:ℚ) by
      norm_num [degenerateParams, exampleParams]]
    rw [wood_regular_y_degenerate_none (n + 1) 0 1 _ (le_refl 0)]

/-- Regular-tile parameters with the random row offset switched on
(`offset_tiles` and `random_offset` both true) but every `vary_*` flag
off. -/
def offsetParams : FloorParams :=
  { exampleParams with
    floor_material := .tile
    tile_styles := .regular
    width := 2
    length := 2
    offset_tiles := true
    random_offset := true }

/-- Counterexample to **C8** as stated: a parameter assignment with all
`vary_*` flags false whose output still depends on the random source —
the random row offset of `tile_regular` is controlled by
`offset_tiles ∧ random_offset`, not by any `vary_*` flag, and it draws
from the random source for the first tile of every row. -/
theorem determinism_counterexample :
    (offsetParams.vary_thickness = false ∧ offsetParams.vary_width = false ∧
      offsetParams.vary_length = false) ∧
    update_data offsetParams (fun _ => 0) 32 ≠
      update_data offsetParams (fun _ => 1) 32 :=
  ⟨⟨rfl, rfl, rfl⟩, of_decide_eq_true (by with_unfolding_all rfl)⟩

/-- **C8 (amended).** For every parameter assignment in which all
`vary_*` flags are false AND the random tile-row offset is not active
(`offset_tiles` and `random_offset` not both true), two generation runs
with identical parameters produce identical vertex, face, and
material-id sequences regardless of the random source. -/
theorem update_data_deterministic (P : FloorParams) (r1 r2 : ℕ → ℚ) (F : ℕ)
    (hvt : P.vary_thickness = false) (hvw : P.vary_width = false)
    (hvl : P.vary_length = false)
    (hoff : P.offset_tiles = false ∨ P.random_offset = false) :
    update_data P r1 F = update_data P r2 F := by
  unfold update_data
  rcases hFM : P.floor_material with _ | _
  · rcases hWS : P.wood_styles with _ | _ | _ | _
    · exact rng_indep_wood_regular_x P r1 r2 hvt hvw hvl F F 0 GenState.empty
    · rfl
    · rfl
    · rfl
  · rcases hTS : P.tile_styles with _ | _ | _ | _
    · exact rng_indep_tile_regular_y P r1 r2 hoff F F 0 false _
    · rfl
    · rfl
    · rfl

/-- Witness for the amended C8: the wood-regular example run under two
different random streams. -/
theorem update_data_deterministic_witness :
    update_data exampleParams (fun _ => 0) 16 =
      update_data exampleParams (fun _ => 1) 16 :=
  update_data_deterministic exampleParams (fun _ => 0) (fun _ => 1) 16
    rfl rfl rfl (Or.inl rfl)

/-- **C4.** For every `W > 0` and `L > 0` (and positive board
dimensions), running the wood regular style with all vary flags false
and `width_spacing = length_spacing = 0` emits boxes whose footprint
areas (post-clip `w * l`) sum exactly to `W * L`, with no two box
footprints overlapping. -/
theorem wood_regular_coverage (P : FloorParams) (rng : ℕ → ℚ) (F : ℕ)
    (st : GenState)
    (hfm : P.floor_material = FloorMaterial.wood)
    (hsty : P.wood_styles = WoodStyle.regular)
    (hW : 0 < P.width) (hL : 0 < P.length)
    (hbw : 0 < P.board_width) (hbl : 0 < P.board_length)
    (hvt : P.vary_thickness = false) (hvw : P.vary_width = false)
    (hvl : P.vary_length = false)
    (hws : P.width_spacing = 0) (hls : P.length_spacing = 0)
    (h : update_data P rng F = some st) :
    (st.boxes.map fun b => b.w * b.l).sum = P.width * P.length ∧
    st.boxes.Pairwise FootDisjoint := by
  unfold update_data at h
  rw [hfm, hsty] at h
  obtain ⟨new, hb, hsum, hall, hpw⟩ :=
    wr_x_coverage P rng hvt hvw hvl hws hls hbw hbl hL F F 0 GenState.empty st
      hW h
  constructor
  · rw [hb]
    simp only [GenState.empty, List.nil_append]
    rw [hsum]
    ring
  · rw [hb]
    simp only [GenState.empty, List.nil_append]
    exact hpw.imp fun hxy =>
      hxy.elim Or.inl fun hy => Or.inr (Or.inr (Or.inl hy))

/-- Witness for C4: the `4 × 2` example tiling, area `8`. -/
theorem wood_regular_coverage_witness :
    ((((update_data exampleParams (fun _ => 0) 16).getD GenState.empty).boxes.map
        fun b => b.w * b.l).sum = exampleParams.width * exampleParams.length) ∧
    ((update_data exampleParams (fun _ => 0) 16).getD
        GenState.empty).boxes.Pairwise FootDisjoint := by
  refine wood_regular_coverage exampleParams (fun _ => 0) 16 _ rfl rfl ?_ ?_ ?_ ?_
    rfl rfl rfl rfl rfl (by with_unfolding_all rfl) <;>
    norm_num [exampleParams]

/-- **C10.** The public `matids` and `uvs` accessors return the empty
list for every generation state, regardless of the material ids
accumulated in `ms` — the grout slab's material id 1 is never visible
through them. -/
theorem matids_uvs_always_empty :
    ∀ st : GenState, matids st = [] ∧ uvs st = [] :=
  fun _ => ⟨rfl, rfl⟩

end ArchipackFloor
